import Mathlib

/-! Verification development for the restore backup tool.

The Python sources (restore/manifest.py, restore/handler.py,
restore/archive.py, restore/handlers/basics.py) are shallowly embedded:

* Python byte strings are lists of characters, each character standing for
  one byte (hypotheses restrict code points below 256 where a byte codec
  is involved);
* Python dictionaries are insertion-ordered association lists with a
  single binding per key;
* handler instances are modeled through the framework contract of
  handler.py: an instance carries its kind name, the positional and
  keyword arguments that get_args returns, the restores_contents class
  attribute, the filepath it is attached to, and the path set that
  get_depends returns;
* filesystem state is an abstract record of predicates (islink, exists,
  isdir, readlink), and the process working directory is an explicit
  parameter wherever os.path.abspath or os.path.relpath consults it;
* exceptions are explicit: functions that can raise return a value
  together with an optional error, or an Except value.
-/

namespace Restore

/-- A Python byte string: a list of characters, one character per byte. -/
abbrev Str := List Char

/-- Turn a Lean string literal into a Str. -/
def lit (s : String) : Str := s.data

/-- Python str.startswith for a single slash: used as os.path.isabs. -/
def isAbs (p : Str) : Bool :=
  match p with
  | [] => false
  | c :: _ => c = '/'

/-- Python s.split(sep) for a one-character separator.  Always returns a
nonempty list; splitting the empty string gives one empty field. -/
def pySplit (sep : Char) : Str → List Str
  | [] => [[]]
  | c :: rest =>
    if c = sep then [] :: pySplit sep rest
    else
      match pySplit sep rest with
      | [] => [[c]]
      | r :: rs => (c :: r) :: rs

/-- Python sep.join(parts) for a one-character separator. -/
def pyJoin (sep : Char) : List Str → Str
  | [] => []
  | [x] => x
  | x :: xs => x ++ sep :: pyJoin sep xs

/-- The characters Python str.strip removes: space, tab, linefeed, carriage
return, form feed, vertical tab. -/
def isPySpace (c : Char) : Bool :=
  c = ' ' ∨ c = '\t' ∨ c = '\n' ∨ c = '\x0d' ∨ c = '\x0c' ∨ c = '\x0b'

/-- Python str.strip(): drop leading and trailing whitespace. -/
def pyStrip (s : Str) : Str :=
  ((s.dropWhile isPySpace).reverse.dropWhile isPySpace).reverse

/-- Python s.rstrip(slash): drop trailing slash characters. -/
def rstripSlashes (p : Str) : Str :=
  (p.reverse.dropWhile (fun c => c = '/')).reverse

/-- posixpath.split(p) from the Python 2 standard library:
i = p.rfind(slash) + 1; head, tail = p[:i], p[i:]; the head keeps its
trailing slashes only when it consists of nothing but slashes. -/
def psplit (p : Str) : Str × Str :=
  let tailLen := (p.reverse.takeWhile (fun c => c ≠ '/')).length
  let i := p.length - tailLen
  let head := p.take i
  let tail := p.drop i
  let head2 :=
    if head ≠ [] ∧ head ≠ List.replicate head.length '/' then rstripSlashes head
    else head
  (head2, tail)

/-- posixpath.dirname. -/
def dirname (p : Str) : Str := (psplit p).1

/-- posixpath.basename. -/
def basename (p : Str) : Str := (psplit p).2

/-- posixpath.join for two components: the right component replaces
everything when absolute, otherwise it is appended with a separating slash
unless the left part is empty or already ends in a slash. -/
def pjoin (a b : Str) : Str :=
  if isAbs b then b
  else if a = [] ∨ a.getLast? = some '/' then a ++ b
  else a ++ '/' :: b

/-- One step of the component filter loop in posixpath.normpath. -/
def normpathStep (initialSlashes : Nat) (acc : List Str) (comp : Str) : List Str :=
  if comp = [] ∨ comp = lit "." then acc
  else if comp ≠ lit ".." ∨ (initialSlashes = 0 ∧ acc = []) ∨ acc.getLast? = some (lit "..") then
    acc ++ [comp]
  else if acc ≠ [] then acc.dropLast
  else acc

/-- The number of initial slashes normpath preserves: one for an
absolute path, two when the path starts with exactly two slashes. -/
def initSlashes (p : Str) : Nat :=
  if isAbs p then
    (if p.take 2 = lit "//" ∧ p.take 3 ≠ lit "///" then 2 else 1)
  else 0

/-- The joined output of the normpath component pass, before the final
empty check. -/
def normpathOut (initialSlashes : Nat) (p : Str) : Str :=
  List.replicate initialSlashes '/' ++
    pyJoin '/' ((pySplit '/' p).foldl (normpathStep initialSlashes) [])

/-- posixpath.normpath from the Python 2 standard library: collapse dot and
dot-dot segments and redundant separators, preserving an initial double
slash (but not three or more). -/
def normpath (p : Str) : Str :=
  if p = [] then lit "."
  else if normpathOut (initSlashes p) p = [] then lit "."
  else normpathOut (initSlashes p) p

/-- os.getcwd() and the filesystem are modeled abstractly.  exists follows
symlinks (kernel path resolution); islink reports the path itself being a
symlink; readlink returns the stored link text. -/
structure Fs where
  islink : Str → Bool
  fexists : Str → Bool
  isdir : Str → Bool
  isfile : Str → Bool
  readlink : Str → Str

/-- posixpath.abspath: join onto the working directory when relative, then
normalize. -/
def abspath (cwd p : Str) : Str :=
  if isAbs p then normpath p else normpath (pjoin cwd p)

/-- Length of the common prefix of two component lists, as
os.path.commonprefix computes it for a pair of lists. -/
def commonPrefixLen : List Str → List Str → Nat
  | [], _ => 0
  | _, [] => 0
  | a :: as, b :: bs => if a = b then commonPrefixLen as bs + 1 else 0

/-- The nonempty slash-separated components of the absolute form of a
path, as relpath computes them. -/
def relComps (cwd q : Str) : List Str :=
  (pySplit '/' (abspath cwd q)).filter (fun x => x ≠ [])

/-- The component list relpath joins: parent steps up to the common
prefix with the working directory, then the remaining components. -/
def relList (cwd p : Str) : List Str :=
  List.replicate ((relComps cwd (lit ".")).length -
      commonPrefixLen (relComps cwd (lit ".")) (relComps cwd p)) (lit "..") ++
    (relComps cwd p).drop
      (commonPrefixLen (relComps cwd (lit ".")) (relComps cwd p))

/-- posixpath.relpath(path) relative to the current directory.  Python
raises ValueError on an empty path, hence the Option. -/
def relpath (cwd p : Str) : Option Str :=
  if p = [] then none
  else if relList cwd p = [] then some (lit ".")
  else some ((relList cwd p).foldl pjoin [])

/-- The single-quote character (byte 39), written via its code to keep the
source free of bare quote characters. -/
def squote : Char := Char.ofNat 39

/-- The double-quote character (byte 34). -/
def dquote : Char := Char.ofNat 34

/-- The backslash character (byte 92). -/
def bslash : Char := '\\'

/-- Lowercase hexadecimal digit for a value below 16. -/
def hexDigit (n : Nat) : Char :=
  if n < 10 then Char.ofNat (48 + n) else Char.ofNat (97 + n - 10)

/-- Value of a hexadecimal digit character, as accepted by Python
isxdigit. -/
def hexVal (c : Char) : Option Nat :=
  if 48 ≤ c.toNat ∧ c.toNat ≤ 57 then some (c.toNat - 48)
  else if 97 ≤ c.toNat ∧ c.toNat ≤ 102 then some (c.toNat - 97 + 10)
  else if 65 ≤ c.toNat ∧ c.toNat ≤ 70 then some (c.toNat - 65 + 10)
  else none

/-- Octal digit test. -/
def isOctal (c : Char) : Bool := 48 ≤ c.toNat ∧ c.toNat ≤ 55

/-- How the Python 2 string-escape codec encodes one byte: backslash, the
quote character, tab, linefeed and carriage return are backslash-escaped;
other bytes outside the printable range 32..126 become a lowercase hex
escape; printable bytes stand for themselves. -/
def escByte (c : Char) : Str :=
  if c = bslash then [bslash, bslash]
  else if c = squote then [bslash, squote]
  else if c = '\t' then [bslash, 't']
  else if c = '\n' then [bslash, 'n']
  else if c = '\x0d' then [bslash, 'r']
  else if c.toNat < 32 ∨ 127 ≤ c.toNat then
    [bslash, 'x', hexDigit (c.toNat % 256 / 16), hexDigit (c.toNat % 16)]
  else [c]

/-- Python s.encode(string-escape). -/
def stringEscapeEncode (s : Str) : Str := s.flatMap escByte

/-- Python s.decode(string-escape), following PyString_DecodeEscape: a
backslash before a linefeed is a line continuation; the named escapes are
translated; up to three octal digits or a backslash-x with exactly two hex
digits give a byte (octal overflow wraps modulo 256); any other escaped
character keeps its backslash; a trailing lone backslash is a ValueError,
as is a malformed hex escape.  The fuel argument only serves Lean
termination; every step consumes at least one input character, so fuel
equal to the input length plus one is always enough (decodeFuel_congr
below shows the result is fuel-independent from there on). -/
def stringEscapeDecodeFuel : Nat → Str → Except Str Str
  | 0, _ => .error (lit "out of fuel")
  | _ + 1, [] => .ok []
  | fuel + 1, c :: rest =>
    let stringEscapeDecode := stringEscapeDecodeFuel fuel
    if c = bslash then
      match rest with
      | [] => .error (lit "Trailing backslash in string")
      | e :: rest2 =>
        if e = '\n' then stringEscapeDecode rest2
        else if e = bslash then (stringEscapeDecode rest2).map (bslash :: ·)
        else if e = squote then (stringEscapeDecode rest2).map (squote :: ·)
        else if e = dquote then (stringEscapeDecode rest2).map (dquote :: ·)
        else if e = 'b' then (stringEscapeDecode rest2).map ('\x08' :: ·)
        else if e = 'f' then (stringEscapeDecode rest2).map ('\x0c' :: ·)
        else if e = 't' then (stringEscapeDecode rest2).map ('\t' :: ·)
        else if e = 'n' then (stringEscapeDecode rest2).map ('\n' :: ·)
        else if e = 'r' then (stringEscapeDecode rest2).map ('\x0d' :: ·)
        else if e = 'v' then (stringEscapeDecode rest2).map ('\x0b' :: ·)
        else if e = 'a' then (stringEscapeDecode rest2).map ('\x07' :: ·)
        else if isOctal e then
          match rest2 with
          | d2 :: rest3 =>
            if isOctal d2 then
              match rest3 with
              | d3 :: rest4 =>
                if isOctal d3 then
                  (stringEscapeDecode rest4).map
                    (Char.ofNat ((((e.toNat - 48) * 8 + (d2.toNat - 48)) * 8
                      + (d3.toNat - 48)) % 256) :: ·)
                else
                  (stringEscapeDecode rest3).map
                    (Char.ofNat (((e.toNat - 48) * 8 + (d2.toNat - 48)) % 256) :: ·)
              | [] => .ok [Char.ofNat (((e.toNat - 48) * 8 + (d2.toNat - 48)) % 256)]
            else (stringEscapeDecode rest2).map (Char.ofNat (e.toNat - 48) :: ·)
          | [] => .ok [Char.ofNat (e.toNat - 48)]
        else if e = 'x' then
          match rest2 with
          | h1 :: h2 :: rest3 =>
            match hexVal h1, hexVal h2 with
            | some v1, some v2 =>
              (stringEscapeDecode rest3).map (Char.ofNat (v1 * 16 + v2) :: ·)
            | _, _ => .error (lit "invalid x escape")
          | _ => .error (lit "invalid x escape")
        else (stringEscapeDecode rest2).map (fun t => bslash :: e :: t)
    else (stringEscapeDecode rest).map (c :: ·)

/-- Python s.decode(string-escape): the fueled decoder run with enough
fuel. -/
def stringEscapeDecode (s : Str) : Except Str Str :=
  stringEscapeDecodeFuel (s.length + 1) s

/-- Python exceptions that the embedded code can raise.  dependencyCycle
models the ValueError raised by Manifest.check_cycles, whose message is
the chain joined with arrows; the chain itself is carried here. -/
inductive PyErr
  | keyError (k : Str)
  | typeError (msg : Str)
  | valueError (msg : Str)
  | attributeError (msg : Str)
  | dependencyCycle (chain : List Str)
  | outOfFuel
deriving DecidableEq, Repr

/-- Decidable equality of Except results, for concrete evaluation. -/
instance exceptDecEq [DecidableEq ε] [DecidableEq α] :
    DecidableEq (Except ε α) := fun a b =>
  match a, b with
  | .error e1, .error e2 =>
    if h : e1 = e2 then isTrue (by rw [h]) else
      isFalse (fun hc => h (Except.error.inj hc))
  | .ok v1, .ok v2 =>
    if h : v1 = v2 then isTrue (by rw [h]) else
      isFalse (fun hc => h (Except.ok.inj hc))
  | .error e1, .ok v2 => isFalse (fun hc => Except.noConfusion hc)
  | .ok v1, .error e2 => isFalse (fun hc => Except.noConfusion hc)

/-- A handler instance, modeled through the framework contract of
handler.py: name is the class attribute used by Handler.from_name; args
and kwargs are what get_args returns (all values strings, as dump
documents); filepath is the path passed to the constructor;
restoresContents is the class attribute read via getattr with default
False; depends is the path set get_depends returns (the base class
returns the dirname of the filepath; subclasses may add more). -/
structure HandlerInst where
  name : Str
  filepath : Str
  args : List Str
  kwargs : List (Str × Str)
  restoresContents : Bool
  depends : List Str
deriving DecidableEq, Repr

/-- The name / args / kwargs projection of an instance: what dump writes
and what survives a serialization round trip. -/
def instNAK (h : HandlerInst) : Str × List Str × List (Str × Str) :=
  (h.name, h.args, h.kwargs)

/-- The handler names reachable by Handler.from_name: every Handler
subclass imported via restore.handlers (basics, packages, example, git,
ignore; youtube is not imported).  SavesFileInfo and the abstract
PackageHandler leave name as NotImplemented, which never equals a
string. -/
def registryNames : List Str :=
  [lit "parent", lit "symbolic-link", lit "basic-directory", lit "basic-file",
   lit "pacman", lit "example", lit "git-content", lit "git-clone",
   lit "git-bundle", lit "ignore"]

/-- Which registered classes set restores_contents = True: only
HandledByParent and IgnoreHandler define the attribute. -/
def classRestoresContents (name : Str) : Bool :=
  name = lit "parent" ∨ name = lit "ignore"

/-- Constructing cls(manifest, path, args, kwargs) for the class named
name: per the get_args contract the instance reproduces the arguments it
was built from; depends starts as the base-class value, the dirname of
the path.  The record itself only stores the get_args view; call sites
that model construction from untrusted arguments (loadLine) first bind
the arguments against the class signature with bindCall, so the
constructor-arity TypeError path is not collapsed. -/
def mkHandlerInst (name path : Str) (args : List Str)
    (kwargs : List (Str × Str)) : HandlerInst :=
  { name := name, filepath := path, args := args, kwargs := kwargs,
    restoresContents := classRestoresContents name,
    depends := [dirname path] }

/-- Dictionary lookup in an insertion-ordered association list (first
binding wins; construction keeps keys unique). -/
def dictGet (k : Str) : List (Str × α) → Option α
  | [] => none
  | e :: rest => if e.1 = k then some e.2 else dictGet k rest

/-- Dictionary assignment: replace the binding in place, or append a new
one. -/
def dictSet (l : List (Str × α)) (k : Str) (v : α) : List (Str × α) :=
  match l with
  | [] => [(k, v)]
  | e :: rest =>
    if e.1 = k then (k, v) :: rest else e :: dictSet rest k v

/-- The Manifest object: the files dict (path to handler-or-None) and the
absolute/relative mode flag (None until the first path is added). -/
structure Manifest where
  files : List (Str × Option HandlerInst)
  absolute : Option Bool
deriving DecidableEq, Repr

/-- The freshly constructed Manifest(). -/
def emptyManifest : Manifest := { files := [], absolute := none }

/-- A vacuous filesystem record: passed where the embedded code provably
never consults the filesystem (add_file with follow_symlinks false). -/
def dummyFs : Fs :=
  { islink := fun _ => false, fexists := fun _ => false,
    isdir := fun _ => false, isfile := fun _ => false,
    readlink := fun _ => [] }

/-- The mode-setting prefix of add_file: on the first call the
absolute/relative mode is recorded from the raw path. -/
def addFileM1 (m : Manifest) (path0 : Str) : Manifest :=
  if m.absolute = none then { m with absolute := some (isAbs path0) } else m

/-- The key add_file stores: the normalized path coerced to the
manifest's mode. -/
def addFileKey (cwd : Str) (m1 : Manifest) (path0 : Str) : Str :=
  if m1.absolute = some true then abspath cwd (normpath path0)
  else (relpath cwd (normpath path0)).getD (normpath path0)

/-- The raw join of a link path with the link text, as add_file computes
the recursion target. -/
def addFileLinked (fs : Fs) (path : Str) : Str :=
  pjoin path (fs.readlink path)

/-- The final binding step of add_file: store the handler under the key
(honouring overwrite) and append the key to the added list. -/
def addFileFinish (path : Str) (handler : Option HandlerInst)
    (overwrite : Bool) (st : Manifest × List Str) : Manifest × List Str :=
  if overwrite ∨ (dictGet path st.1.files).isNone then
    ({ st.1 with files := dictSet st.1.files path handler }, st.2 ++ [path])
  else st

/-- Manifest.add_file (manifest.py lines 43-71).  The mode is inferred
from the raw path on first use; the path is normalized and then coerced
to the mode; under follow_symlinks a link target (the raw join of the
link path and the link text) is added first when it exists or is itself
a link; finally the path is bound (honouring overwrite) and the list of
added paths returned.  The fuel argument bounds the symlink recursion
depth only (Python recurses unboundedly); relpath of a normalized path
is never none, so the getD default is unreachable
(relpath_normpath_isSome below). -/
def Manifest.add_file (fs : Fs) (cwd : Str) : Nat → Manifest → Str →
    Option HandlerInst → Bool → Bool → Manifest × List Str
  | fuel, m, path0, handler, overwrite, follow_symlinks =>
    addFileFinish (addFileKey cwd (addFileM1 m path0) path0) handler overwrite
      (if follow_symlinks ∧
          fs.islink (addFileKey cwd (addFileM1 m path0) path0) then
        if fs.fexists (addFileLinked fs
              (addFileKey cwd (addFileM1 m path0) path0)) ∨
            fs.islink (addFileLinked fs
              (addFileKey cwd (addFileM1 m path0) path0)) then
          match fuel with
          | 0 => (addFileM1 m path0, [])
          | fuel2 + 1 =>
            Manifest.add_file fs cwd fuel2 (addFileM1 m path0)
              (addFileLinked fs (addFileKey cwd (addFileM1 m path0) path0))
              none false follow_symlinks
        else (addFileM1 m path0, [])
      else (addFileM1 m path0, []))

/-- Python sep.join(parts) for a string separator. -/
def pyJoinS (sep : Str) : List Str → Str
  | [] => []
  | [x] => x
  | x :: xs => x ++ sep ++ pyJoinS sep xs

/-- Byte-wise lexicographic comparison of Python 2 byte strings. -/
def strLt : Str → Str → Bool
  | [], [] => false
  | [], _ :: _ => true
  | _ :: _, [] => false
  | a :: as, b :: bs =>
    if a.toNat < b.toNat then true
    else if b.toNat < a.toNat then false
    else strLt as bs

/-- The key=value rendering of one keyword argument in the dump
format. -/
def kwItem (kv : Str × Str) : Str := kv.1 ++ '=' :: kv.2

/-- Insertion of one entry into a path-sorted entry list.  Manifest keys
are unique, so ascending insertion reproduces exactly the order Python
sorted() emits; a structurally recursive sort keeps every dump kernel
computable. -/
def insortKey (e : Str × Option HandlerInst) :
    List (Str × Option HandlerInst) → List (Str × Option HandlerInst)
  | [] => [e]
  | x :: xs => if strLt e.1 x.1 then e :: x :: xs else x :: insortKey e xs

/-- sorted(self.files.items()): the entries in ascending path order. -/
def sortFiles (l : List (Str × Option HandlerInst)) :
    List (Str × Option HandlerInst) :=
  l.foldr insortKey []

/-- The argument field dump writes for one handler: positional values,
then key=value pairs, comma separated. -/
def handlerArgstr (h : HandlerInst) : Str :=
  pyJoinS (lit ", ") (h.args ++ h.kwargs.map kwItem)

/-- The comma-split tokens the load parser sees for a dumped argument
field: every item after the first keeps the space that followed the
comma. -/
def argTokens (first : Bool) : List Str → List (Str × Str) → List Str
  | a :: as, kvs =>
    (if first then a else ' ' :: a) :: argTokens false as kvs
  | [], kv :: kvs =>
    (if first then kwItem kv else ' ' :: kwItem kv) :: argTokens false [] kvs
  | [], [] => []

/-- One line of the on-disk format without its terminator: escaped path,
handler name (or the literal none), argument list, tab separated. -/
def lineBody (e : Str × Option HandlerInst) : Str :=
  let nameArgs :=
    match e.2 with
    | some h => (h.name, handlerArgstr h)
    | none => (lit "none", [])
  stringEscapeEncode e.1 ++ '\t' :: (nameArgs.1 ++ '\t' :: nameArgs.2)

/-- One line of the on-disk format, newline terminated. -/
def dumpLine (e : Str × Option HandlerInst) : Str :=
  lineBody e ++ ['\n']

/-- Manifest.dump (manifest.py lines 73-93): entries sorted by path, one
line each. -/
def Manifest.dump (m : Manifest) : Str :=
  (sortFiles m.files).foldl (fun out e => out ++ dumpLine e) []

/-- The body of the argument-parsing loop on load: an item with an
equals sign is split once into a stripped key and value and assigned
into the keyword dict; any other item is a stripped positional
argument. -/
def parseArgStep (acc : List Str × List (Str × Str)) (arg : Str) :
    List Str × List (Str × Str) :=
  if '=' ∈ arg then
    let k := arg.takeWhile (fun c => c ≠ '=')
    let v := (arg.dropWhile (fun c => c ≠ '=')).drop 1
    (acc.1, dictSet acc.2 (pyStrip k) (pyStrip v))
  else (acc.1 ++ [pyStrip arg], acc.2)

/-- Parsing the argument field on load: split on commas, drop empty
items, classify each item. -/
def parseArgs (argstr : Str) : List Str × List (Str × Str) :=
  ((pySplit ',' argstr).filter (fun a => a ≠ [])).foldl parseArgStep ([], [])

/-- The constructor parameters of each registered handler class after
(self, manifest, filepath), in declaration order, each with its default
in dumped string form: parent, symbolic-link, basic-directory,
basic-file and ignore inherit Handler.__init__(self, manifest, filepath)
and take none; pacman takes package (packages.py line 72), example takes
value, git-content takes repo, git-clone takes remote and bare=False,
git-bundle takes bare=False. -/
def ctorParams (name : Str) : List (Str × Option Str) :=
  if name = lit "pacman" then [(lit "package", none)]
  else if name = lit "example" then [(lit "value", none)]
  else if name = lit "git-content" then [(lit "repo", none)]
  else if name = lit "git-clone" then
    [(lit "remote", none), (lit "bare", some (lit "False"))]
  else if name = lit "git-bundle" then [(lit "bare", some (lit "False"))]
  else []

/-- One pass of Python 2 argument binding: positional arguments fill the
leading parameters (a keyword for a positionally filled parameter is the
multiple-values TypeError, positionals left over past the last parameter
the too-many TypeError), then each remaining parameter takes its keyword
value or its default (a required parameter with neither is the
not-enough TypeError).  Returns each parameter with its bound value. -/
def bindVals (kwargs : List (Str × Str)) :
    List Str → List (Str × Option Str) →
    Except PyErr (List ((Str × Option Str) × Str))
  | args, [] =>
    match args with
    | [] => .ok []
    | _ :: _ => .error (.typeError (lit "init takes too many arguments"))
  | a :: args2, p :: rest =>
    if (dictGet p.1 kwargs).isSome then
      .error (.typeError (lit "init got multiple values for argument"))
    else (bindVals kwargs args2 rest).map (fun l => (p, a) :: l)
  | [], p :: rest =>
    match dictGet p.1 kwargs with
    | some v => (bindVals kwargs [] rest).map (fun l => (p, v) :: l)
    | none =>
      match p.2 with
      | some d => (bindVals kwargs [] rest).map (fun l => (p, d) :: l)
      | none => .error (.typeError (lit "init takes more arguments"))

/-- Binding cls(manifest, path, *args, **kwargs) against the class's
parameter list, as CPython does when load constructs a handler
(manifest.py line 117): a keyword that names no parameter is the
unexpected-keyword TypeError; on success the result is the (args,
kwargs) view get_args returns - required parameters positionally in
order, defaulted parameters as keywords in order. -/
def bindCall (params : List (Str × Option Str)) (args : List Str)
    (kwargs : List (Str × Str)) :
    Except PyErr (List Str × List (Str × Str)) :=
  if kwargs.all (fun kv => decide (kv.1 ∈ params.map Prod.fst)) then
    (bindVals kwargs args params).map (fun l =>
      ((l.filter (fun pv => pv.1.2.isNone)).map Prod.snd,
       (l.filter (fun pv => pv.1.2.isSome)).map (fun pv => (pv.1.1, pv.2))))
  else .error (.typeError (lit "init got an unexpected keyword argument"))

/-- Loading one manifest line (manifest.py lines 98-119): split into at
most three tab-separated fields padded with empty strings, decode the
path, parse the arguments, resolve the handler name (none and the empty
name give an unbound entry; an unregistered name is a KeyError from
Handler.from_name), construct the class with the parsed arguments (a
signature mismatch is the TypeError CPython raises while binding the
call), and add_file the result with overwrite.  add_file is called with
follow_symlinks false, so the filesystem is never consulted. -/
def loadLine (cwd : Str) (m : Manifest) (line : Str) : Manifest × Option PyErr :=
  let parts0 := pySplit '\t' line
  let parts := parts0 ++ List.replicate (3 - parts0.length) []
  let pathEnc := parts.getD 0 []
  let name := parts.getD 1 []
  let argstr := parts.getD 2 []
  match stringEscapeDecode pathEnc with
  | .error e => (m, some (.valueError e))
  | .ok path =>
    let pk := parseArgs argstr
    if name = lit "none" ∨ name = [] then
      ((Manifest.add_file dummyFs cwd 0 m path none true false).1, none)
    else if name ∈ registryNames then
      match bindCall (ctorParams name) pk.1 pk.2 with
      | .error e => (m, some e)
      | .ok akw =>
        ((Manifest.add_file dummyFs cwd 0 m path
          (some (mkHandlerInst name path akw.1 akw.2)) true false).1, none)
    else (m, some (.keyError name))

/-- Process manifest lines in order, stopping at the first raised
exception; the manifest keeps the mutations made so far. -/
def loadLines (cwd : Str) : Manifest → List Str → Manifest × Option PyErr
  | m, [] => (m, none)
  | m, line :: rest =>
    match loadLine cwd m line with
    | (m2, none) => loadLines cwd m2 rest
    | (m2, some e) => (m2, some e)

/-- Manifest.load (manifest.py lines 95-119): split the data on newlines,
drop empty lines, process each in order.  Mutation is in place, so the
pair returned is the manifest state after the call together with the
exception if one was raised. -/
def Manifest.load (cwd : Str) (m : Manifest) (data : Str) :
    Manifest × Option PyErr :=
  loadLines cwd m ((pySplit '\n' data).filter (fun l => l ≠ []))

/-- The name / args / kwargs view of a manifest entry, the comparison the
round-trip claims are stated in (same path set, same handler name and
arguments; handler identity aside). -/
def Manifest.lookupNAK (m : Manifest) (p : Str) :
    Option (Option (Str × List Str × List (Str × Str))) :=
  (dictGet p m.files).map (Option.map instNAK)

/-- The handler binding the load parser reconstructs for a dumped entry:
unbound stays unbound; a bound handler is rebuilt from its dumped name
and arguments at the entry path. -/
def reconInst (e : Str × Option HandlerInst) : Option HandlerInst :=
  e.2.map (fun hh => mkHandlerInst hh.name e.1 hh.args hh.kwargs)

instance nakDecEq : DecidableEq (Str × List Str × List (Str × Str)) :=
  fun a b => instDecidableEqProd a b

instance optNakDecEq : DecidableEq (Option (Str × List Str × List (Str × Str))) :=
  fun a b => Option.instDecidableEq a b

instance optOptNakDecEq :
    DecidableEq (Option (Option (Str × List Str × List (Str × Str)))) :=
  fun a b => Option.instDecidableEq a b

/-- A handler class as the matcher sees it: its name, the
restores_contents class attribute (getattr default False), and the class
method match(manifest, path) returning None or the (args, kwargs) pair
for the constructor.  Concrete match bodies interrogate the filesystem
and subprocesses and are collaborators, so the class is abstract. -/
structure HandlerKind where
  name : Str
  restoresContents : Bool
  matchFn : Manifest → Str → Option (List Str × List (Str × Str))

/-- cls(manifest, path, args, kwargs) for a matcher class: the instance
records the construction arguments per the get_args contract, carries the
class restores_contents flag, and starts with the base-class depends. -/
def HandlerKind.mkInst (k : HandlerKind) (path : Str) (a : List Str)
    (kw : List (Str × Str)) : HandlerInst :=
  { name := k.name, filepath := path, args := a, kwargs := kw,
    restoresContents := k.restoresContents, depends := [dirname path] }

/-- The matching loop of Manifest.find_match (manifest.py lines 220-228)
with the default DummySemaphore and no confirm callback: try each class
in priority order; a None match is falsy and skipped (an (args, kwargs)
pair is a nonempty tuple, hence always truthy); the first match is
constructed and bound, and the loop breaks; if nothing matches the files
dict is untouched. -/
def findMatchLoop (m : Manifest) (path : Str) : List HandlerKind → Manifest
  | [] => m
  | k :: rest =>
    match k.matchFn m path with
    | none => findMatchLoop m path rest
    | some akw =>
      { m with files := dictSet m.files path (some (k.mkInst path akw.1 akw.2)) }

/-- Phase of one matching task in find_matches: start (spawned, body not
yet past the parent wait), matched (the find_match body has run and any
binding is written), done (the ready Event for the path is set). -/
inductive TaskPhase
  | start
  | matched
  | done
deriving DecidableEq, Repr

/-- State of the cooperative matching pass: the manifest plus the phase
of the task of every path in the domain (the paths given ready Events in
find_matches). -/
structure MatchState where
  m : Manifest
  phase : Str → TaskPhase

/-- Scheduler steps for the matching pass.  gevent may interleave tasks
at any suspension point; every interleaving respecting the Event waits
is admitted, a superset of the real schedules, so safety statements
proved over it cover the implementation.  runMatch is the find_match
body for a path: the wait on the parent Event (manifest.py lines
216-218) requires the parent phase to be done whenever the parent is in
the domain; the matching loop then runs against the manifest state at
that moment.  setReady is the Event set on line 230. -/
inductive MatchStep (dom : List Str) (handlers : List HandlerKind) :
    MatchState → MatchState → Prop
  | runMatch (p : Str) (s : MatchState)
      (hp : p ∈ dom) (hphase : s.phase p = .start)
      (hparent : dirname p ∈ dom → s.phase (dirname p) = .done) :
      MatchStep dom handlers s
        { m := findMatchLoop s.m p handlers,
          phase := fun q => if q = p then .matched else s.phase q }
  | setReady (p : Str) (s : MatchState)
      (hp : p ∈ dom) (hphase : s.phase p = .matched) :
      MatchStep dom handlers s
        { m := s.m, phase := fun q => if q = p then .done else s.phase q }

/-- States reachable by the matching scheduler from an initial manifest
with every task spawned and unstarted. -/
inductive MatchReachable (dom : List Str) (handlers : List HandlerKind)
    (init : Manifest) : MatchState → Prop
  | base : MatchReachable dom handlers init
      { m := init, phase := fun _ => .start }
  | step {s s2 : MatchState} (hr : MatchReachable dom handlers init s)
      (hs : MatchStep dom handlers s s2) : MatchReachable dom handlers init s2

/-- Run an exception-raising action on each element in turn, as a
Python for loop over it: the first raised exception aborts the loop. -/
def exFold (g : α → Except PyErr Unit) : List α → Except PyErr Unit
  | [] => .ok ()
  | d :: rest =>
    match g d with
    | .error e => .error e
    | .ok _ => exFold g rest

/-- The declared dependency edge relation of a manifest: path u is bound
and path w is the normalized form of one of its handler's declared
dependencies. -/
def depEdge (m : Manifest) (u w : Str) : Bool :=
  match dictGet u m.files with
  | some (some h) => w ∈ h.depends.map normpath
  | _ => false

/-- A walk in the dependency graph: consecutive elements are
edge-related. -/
def depChainOk (m : Manifest) : List Str → Bool
  | [] => true
  | [_] => true
  | u :: w :: rest => depEdge m u w && depChainOk m (w :: rest)

/-- A dependency cycle: a nonempty vertex list that, followed again by
its own head, forms a walk. -/
def isCycleIn (m : Manifest) : List Str → Bool
  | [] => false
  | v :: vs => depChainOk m (v :: (vs ++ [v]))

/-- Manifest.check_cycles for one starting path (manifest.py lines
281-297): return when the path is outside the manifest; raise the
dependency-cycle ValueError when the path already sits on the chain;
otherwise iterate get_depends() of the binding (an unbound entry is None
and raises AttributeError), recursing with the path appended to the
chain and each dependency normalized.  The fuel only serves Lean
termination: the chain grows by a fresh manifest path at every level, so
files.length + 1 fuel is never exhausted (checkCycles_no_fuel below). -/
def checkCyclesFuel (m : Manifest) : Nat → Str → List Str → Except PyErr Unit
  | 0, _, _ => .error .outOfFuel
  | fuel + 1, path, chain =>
    match dictGet path m.files with
    | none => .ok ()
    | some binding =>
      if path ∈ chain then .error (.dependencyCycle (chain ++ [path]))
      else
        match binding with
        | none => .error (.attributeError (lit "NoneType has no get_depends"))
        | some h =>
          exFold (fun d => checkCyclesFuel m fuel (normpath d) (chain ++ [path]))
            h.depends

/-- Manifest.check_cycles with no arguments: check every path of the
manifest in turn, surfacing the first exception. -/
def Manifest.check_cycles (m : Manifest) : Except PyErr Unit :=
  exFold (fun e => checkCyclesFuel m (m.files.length + 1) e.1 []) m.files

/-- A filesystem side effect performed by a handler restore body. -/
inductive FsAction
  | chmod (path : Str) (mode : Nat)
  | chown (path : Str) (uid gid : Nat)
deriving DecidableEq, Repr

/-- Manifest.restore (manifest.py lines 232-238): fetch the extra data
for the path, look the handler up (a missing key is a KeyError), do
nothing for an unbound entry, else call handler.restore(extra_data).
The dynamic dispatch over handler classes is the restoreFn parameter. -/
def Manifest.restore (m : Manifest) (extraOf : Str → List (Str × Str))
    (restoreFn : HandlerInst → List (Str × Str) → Except PyErr (List FsAction))
    (path : Str) : Except PyErr (List FsAction) :=
  let extra := extraOf path
  match dictGet path m.files with
  | none => .error (.keyError path)
  | some none => .ok []
  | some (some h) => restoreFn h extra

/-- The restore phase of Manifest.restore_all: one task per path (gmap),
each skipping unbound entries and otherwise calling Manifest.restore;
the first exception aborts the batch.  The model runs tasks in files
order; the dependency Event waits only affect the order among
successful restores, which no claim below depends on. -/
def performRestores (extraOf : Str → List (Str × Str))
    (restoreFn : HandlerInst → List (Str × Str) → Except PyErr (List FsAction))
    (m : Manifest) : Except PyErr (List (Str × List FsAction)) :=
  m.files.foldl
    (fun acc e =>
      match acc with
      | .error err => .error err
      | .ok evs =>
        match e.2 with
        | none => .ok evs
        | some _ =>
          match m.restore extraOf restoreFn e.1 with
          | .ok acts => .ok (evs ++ [(e.1, acts)])
          | .error err => .error err)
    (.ok [])

/-- Manifest.restore_all (manifest.py lines 240-269): check_cycles runs
first, and only if it returns does the restore pool start. -/
def Manifest.restore_all (m : Manifest) (extraOf : Str → List (Str × Str))
    (restoreFn : HandlerInst → List (Str × Str) → Except PyErr (List FsAction)) :
    Except PyErr (List (Str × List FsAction)) :=
  match m.check_cycles with
  | .error e => .error e
  | .ok _ => performRestores extraOf restoreFn m

/-- A Python instance method: its parameter count after self, and its
body.  call1 models CPython calling the method with one positional
argument: the arity is checked before the body runs. -/
structure PyMethod where
  extraParamCount : Nat
  body : List (Str × Str) → Except PyErr (List FsAction)

/-- Calling method(arg): a TypeError unless the method declares exactly
one parameter besides self. -/
def PyMethod.call1 (f : PyMethod) (arg : List (Str × Str)) :
    Except PyErr (List FsAction) :=
  if f.extraParamCount = 1 then f.body arg
  else .error (.typeError (lit "restore takes exactly 1 argument, 2 given"))

/-- HandledByParent.restore (basics.py lines 79-80): declared def
restore(self), zero parameters besides self, with a pass body. -/
def HandledByParent.restoreMethod : PyMethod :=
  { extraParamCount := 0, body := fun _ => .ok [] }

/-- Dynamic dispatch of handler.restore when the bound handler is the
handled-by-parent class; every other kind dispatches to its own class,
abstracted as the other parameter. -/
def dispatchWithParent
    (other : HandlerInst → List (Str × Str) → Except PyErr (List FsAction))
    (h : HandlerInst) (extra : List (Str × Str)) : Except PyErr (List FsAction) :=
  if h.name = lit "parent" then HandledByParent.restoreMethod.call1 extra
  else other h extra

/-- An entry of the system user table, as pwd returns it. -/
structure PwEntry where
  pw_name : Str
  pw_uid : Nat
deriving DecidableEq, Repr

/-- An entry of the system group table, as grp returns it. -/
structure GrEntry where
  gr_name : Str
  gr_gid : Nat
deriving DecidableEq, Repr

/-- pwd.getpwnam: the entry for a user name, KeyError when absent. -/
def getpwnam (tbl : List PwEntry) (n : Str) : Except PyErr PwEntry :=
  match tbl.find? (fun e => e.pw_name = n) with
  | some e => .ok e
  | none => .error (.keyError n)

/-- grp.getgrnam: the entry for a group name, KeyError when absent. -/
def getgrnam (tbl : List GrEntry) (n : Str) : Except PyErr GrEntry :=
  match tbl.find? (fun e => e.gr_name = n) with
  | some e => .ok e
  | none => .error (.keyError n)

/-- pwd.getpwuid as used at backup time, None-returning form. -/
def getpwuid (tbl : List PwEntry) (uid : Nat) : Option PwEntry :=
  tbl.find? (fun e => e.pw_uid = uid)

/-- grp.getgrgid as used at backup time, None-returning form. -/
def getgrgid (tbl : List GrEntry) (gid : Nat) : Option GrEntry :=
  tbl.find? (fun e => e.gr_gid = gid)

/-- What the local variables uid and gid of SavesFileInfo.restore hold:
either the current integer id, or the whole pwd/grp record - the code
binds the result of pwd.getpwnam itself, not its pw_uid field. -/
inductive PyIdVal
  | int (n : Nat)
  | pw (e : PwEntry)
  | gr (e : GrEntry)
deriving DecidableEq, Repr

/-- Python 2 inequality of such a value against an integer: values of
different types never compare equal. -/
def PyIdVal.neInt : PyIdVal → Nat → Bool
  | .int n, k => n ≠ k
  | .pw _, _ => true
  | .gr _, _ => true

/-- os.chown accepts only integer ids; passing a pwd or grp record is a
TypeError. -/
def osChown (path : Str) (u v : PyIdVal) : Except PyErr FsAction :=
  match u, v with
  | .int a, .int b => .ok (.chown path a b)
  | _, _ => .error (.typeError (lit "an integer is required"))

/-- A stat result, restricted to the fields SavesFileInfo reads. -/
structure FileStat where
  st_mode : Nat
  st_uid : Nat
  st_gid : Nat
deriving DecidableEq, Repr

/-- stat.S_IMODE: the permission bits of a mode word. -/
def S_IMODE (n : Nat) : Nat := n % 4096

/-- The extra data SavesFileInfo.get_extra_data returns (handler.py
lines 87-101): the permission bits, and the owner and group names, each
None when no table entry exists for the current id. -/
structure SfiExtra where
  mode : Nat
  owner : Option Str
  group : Option Str
deriving DecidableEq, Repr

/-- SavesFileInfo.get_extra_data (handler.py lines 87-101). -/
def SavesFileInfo.get_extra_data (pwTbl : List PwEntry) (grTbl : List GrEntry)
    (st : FileStat) : SfiExtra :=
  { mode := S_IMODE st.st_mode,
    owner := (getpwuid pwTbl st.st_uid).map (fun e => e.pw_name),
    group := (getgrgid grTbl st.st_gid).map (fun e => e.gr_name) }

/-- SavesFileInfo.restore (handler.py lines 103-110), state passing: the
filesystem actions performed so far together with the escaping exception
if any.  chmod runs first when the saved mode differs from the current
permission bits; then uid and gid are computed - the current id when the
saved name is None, otherwise the raw result of the by-name lookup
(KeyError when the name is absent from the table); chown runs when
either computed value differs from the current id in the Python sense. -/
def SavesFileInfo.restore (pwTbl : List PwEntry) (grTbl : List GrEntry)
    (filepath : Str) (st : FileStat) (extra : SfiExtra) :
    List FsAction × Option PyErr :=
  let acts :=
    if S_IMODE st.st_mode ≠ extra.mode then [FsAction.chmod filepath extra.mode]
    else []
  let uidRes : Except PyErr PyIdVal :=
    match extra.owner with
    | none => .ok (.int st.st_uid)
    | some nm => (getpwnam pwTbl nm).map .pw
  match uidRes with
  | .error e => (acts, some e)
  | .ok uid =>
    let gidRes : Except PyErr PyIdVal :=
      match extra.group with
      | none => .ok (.int st.st_gid)
      | some nm => (getgrnam grTbl nm).map .gr
    match gidRes with
    | .error e => (acts, some e)
    | .ok gid =>
      if uid.neInt st.st_uid ∨ gid.neInt st.st_gid then
        match osChown filepath uid gid with
        | .ok a => (acts ++ [a], none)
        | .error e => (acts, some e)
      else (acts, none)

/-- A tar archive member: its name, whether it is a directory entry, and
its content.  mtime, uid, gid and mode are fixed by build_tarinfo and
play no role in the claims. -/
structure TarMember where
  name : Str
  isdir : Bool
  content : Str
deriving DecidableEq, Repr

/-- Archive state on the write side: the members streamed out so far and
the _names cache (a Python set, kept as a first-insertion-ordered
list). -/
structure ArchiveW where
  members : List TarMember
  names : List Str
deriving DecidableEq, Repr

/-- A fresh write archive. -/
def emptyArchive : ArchiveW := { members := [], names := [] }

/-- Adding to a Python set, modeled on an ordered list. -/
def setAdd (l : List Str) (x : Str) : List Str :=
  if x ∈ l then l else l ++ [x]

/-- Archive.archive_path (archive.py lines 47-49): data/ plus the path
with leading slashes stripped. -/
def archive_path (p : Str) : Str :=
  lit "data/" ++ p.dropWhile (fun c => c = '/')

/-- Archive.mkdir (archive.py lines 118-131): recursively emit directory
members for missing intermediate directories, tracking them in _names.
The fuel only serves Lean termination: dirname strictly shortens any
path other than its own dirname, so length + 1 fuel is never exhausted
(awMkdir_fuel_enough below). -/
def awMkdirFuel : Nat → ArchiveW → Str → ArchiveW
  | 0, ar, _ => ar
  | fuel + 1, ar, path =>
    if path = [] ∨ path ∈ ar.names then ar
    else
      { members :=
          (if path ≠ dirname path then awMkdirFuel fuel ar (dirname path)
           else ar).members ++
          [{ name := path, isdir := true, content := [] }],
        names := setAdd
          (if path ≠ dirname path then awMkdirFuel fuel ar (dirname path)
           else ar).names path }

/-- Archive.mkdir with enough fuel. -/
def awMkdir (ar : ArchiveW) (path : Str) : ArchiveW :=
  awMkdirFuel (path.length + 1) ar path

/-- Archive.write (archive.py lines 106-116): create the parent
directories, then append a regular member with the value (str of a byte
string is itself) and record its name. -/
def awWrite (ar : ArchiveW) (path : Str) (value : Str) : ArchiveW :=
  { members := (awMkdir ar (dirname path)).members ++
      [{ name := path, isdir := false, content := value }],
    names := setAdd (awMkdir ar (dirname path)).names path }

/-- Archive.add_extra_data (archive.py lines 133-137): one write per
key under the archive path of the file. -/
def Archive.add_extra_data (ar : ArchiveW) (p : Str)
    (data : List (Str × Str)) : ArchiveW :=
  data.foldl (fun ar2 kv => awWrite ar2 (pjoin (archive_path p) kv.1) kv.2) ar

/-- The per-entry loop of Archive.add_manifest: handler.get_extra_data()
is requested unconditionally, so an unbound entry (None) raises
AttributeError; non-empty data is written out.  extraOf gives the data
the bound handler of each path produces. -/
def addManifestLoop (extraOf : Str → List (Str × Str)) :
    ArchiveW → List (Str × Option HandlerInst) → ArchiveW × Option PyErr
  | ar, [] => (ar, none)
  | ar, (_, none) :: _ =>
    (ar, some (.attributeError (lit "NoneType has no get_extra_data")))
  | ar, (p, some _) :: rest =>
    addManifestLoop extraOf
      (if extraOf p ≠ [] then Archive.add_extra_data ar p (extraOf p)
       else ar) rest

/-- Archive.add_manifest (archive.py lines 139-145): write the dump as
the manifest member, then the extra data of every entry. -/
def Archive.add_manifest (extraOf : Str → List (Str × Str)) (ar : ArchiveW)
    (m : Manifest) : ArchiveW × Option PyErr :=
  addManifestLoop extraOf (awWrite ar (lit "manifest") m.dump) m.files

/-- Archive.get_names on the read side: the member name list with set
semantics (first occurrence order). -/
def awGetNames (members : List TarMember) : List Str :=
  (members.map (fun mem => mem.name)).dedup

/-- TarFile.getmember: the last member bearing the name (the most
up-to-date version, per the tarfile documentation). -/
def awGetMember (members : List TarMember) (n : Str) : Option TarMember :=
  (members.filter (fun mem => mem.name = n)).getLast?

/-- Archive.read: the content of the member of that name. -/
def awRead (members : List TarMember) (n : Str) : Option Str :=
  (awGetMember members n).map (fun mem => mem.content)

/-- Archive.get_extra_data (archive.py lines 67-79): scan the name set
for members directly under the archive path of the file, keep the
regular ones, and map basename to content. -/
def Archive.get_extra_data (members : List TarMember) (p : Str) :
    List (Str × Str) :=
  (awGetNames members).foldl
    (fun acc n =>
      if dirname n = archive_path p then
        match awGetMember members n with
        | some mem =>
          if mem.isdir then acc else dictSet acc (basename n) mem.content
        | none => acc
      else acc)
    []

/-- The entry the get_extra_data scan derives from one member name:
present when the name sits directly under the data directory of the file
and its most recent member is regular. -/
def gedPick (members : List TarMember) (A : Str) (n : Str) :
    Option (Str × Str) :=
  if dirname n = A then
    match awGetMember members n with
    | some mem => if mem.isdir then none else some (basename n, mem.content)
    | none => none
  else none

/-- Archive.get_manifest (archive.py lines 62-65): parse the manifest
member into a fresh Manifest (a missing member is a KeyError from
getmember). -/
def Archive.get_manifest (cwd : Str) (members : List TarMember) :
    Manifest × Option PyErr :=
  match awRead members (lit "manifest") with
  | none => (emptyManifest, some (.keyError (lit "manifest")))
  | some data => Manifest.load cwd emptyManifest data

/-- One add_file call of a user script: the raw path, the optional
handler, the overwrite and follow_symlinks flags, and the symlink
recursion fuel. -/
structure AddCall where
  path : Str
  handler : Option HandlerInst
  overwrite : Bool
  follow : Bool
  fuel : Nat

/-- Run a sequence of add_file calls against a manifest. -/
def runAddScript (fs : Fs) (cwd : Str) : Manifest → List AddCall → Manifest
  | m, [] => m
  | m, c :: rest =>
    runAddScript fs cwd
      (Manifest.add_file fs cwd c.fuel m c.path c.handler c.overwrite c.follow).1
      rest

/-- A positional argument survives the dump format when it is nonempty,
free of the separator and field characters, free of the equals sign that
would reclassify it as a keyword, and fixed under strip. -/
@[reducible] def argWf (a : Str) : Prop :=
  a ≠ [] ∧ ',' ∉ a ∧ '=' ∉ a ∧ '\t' ∉ a ∧ '\n' ∉ a ∧ pyStrip a = a

/-- A keyword argument survives the dump format when key and value are
free of separator and field characters, the key is free of the equals
sign, and both are fixed under strip. -/
@[reducible] def kwargWf (kv : Str × Str) : Prop :=
  ',' ∉ kv.1 ∧ '=' ∉ kv.1 ∧ '\t' ∉ kv.1 ∧ '\n' ∉ kv.1 ∧ pyStrip kv.1 = kv.1 ∧
  ',' ∉ kv.2 ∧ '\t' ∉ kv.2 ∧ '\n' ∉ kv.2 ∧ pyStrip kv.2 = kv.2

/-- A handler instance in serializable form: registered name, well-formed
arguments, keyword keys distinct, and arguments that its class
constructor accepts and echoes back from get_args (binding them against
the signature succeeds and reproduces the same view), so that load can
re-construct the instance. -/
@[reducible] def instWf (h : HandlerInst) : Prop :=
  h.name ∈ registryNames ∧ (∀ a ∈ h.args, argWf a) ∧
  (∀ kv ∈ h.kwargs, kwargWf kv) ∧ (h.kwargs.map Prod.fst).Nodup ∧
  bindCall (ctorParams h.name) h.args h.kwargs = .ok (h.args, h.kwargs)

/-- A manifest key in the add_file normal form for the given mode: byte
range for the escape codec, normalized, and a fixed point of the mode
coercion (isAbs for absolute manifests, a relpath fixed point for
relative ones). -/
@[reducible] def keyWf (cwd : Str) (absMode : Bool) (p : Str) : Prop :=
  (∀ c ∈ p, c.toNat < 256) ∧ normpath p = p ∧
  (if absMode then isAbs p = true
   else isAbs p = false ∧ relpath cwd p = some p)

/-- A manifest whose dump is loadable back: distinct keys, a resolved
mode matching every key, well-formed handler data (an empty manifest may
still have mode None). -/
@[reducible] def manifestWf (cwd : Str) (m : Manifest) : Prop :=
  (m.files.map Prod.fst).Nodup ∧
  (m.absolute = none → m.files = []) ∧
  ∀ b, m.absolute = some b →
    ∀ e ∈ m.files, keyWf cwd b e.1 ∧ ∀ h ∈ e.2, instWf h

/-- A manifest path whose archive data directory is recoverable: the
stripped path is nonempty (the path is not the root) and does not end in
a slash. -/
@[reducible] def archKeyOk (p : Str) : Prop :=
  p.dropWhile (fun c => c = '/') ≠ [] ∧
  (p.dropWhile (fun c => c = '/')).getLast? ≠ some '/'

/-- An extra-data key addressable in the archive: nonempty and free of
slashes, so that it stays a basename directly under the data
directory. -/
@[reducible] def extraKeyWf (k : Str) : Prop := k ≠ [] ∧ '/' ∉ k

/-- A concrete well-formed manifest: an unbound entry and a git-clone
binding with one positional and one keyword argument. -/
def c1Wit : Manifest :=
  { files :=
      [(lit "/b/a", none),
       (lit "/a", some (mkHandlerInst (lit "git-clone") (lit "/a")
         [lit "url"] [(lit "bare", lit "False")]))],
    absolute := some true }

/-- A concrete manifest whose only handler argument contains a comma:
the dump writes the argument verbatim and the load splits it in two. -/
def c1Cex : Manifest :=
  { files :=
      [(lit "/a", some (mkHandlerInst (lit "pacman") (lit "/a")
        [lit "x,y"] []))],
    absolute := some true }

/-- A concrete filesystem for the symlink-resolution claim: /a/L is a
symlink whose link text is the relative name target, the sibling file
/a/target exists, and no path exists below the link itself. -/
def c6Fs : Fs :=
  { islink := fun p => p = lit "/a/L",
    fexists := fun p =>
      p = lit "/" ∨ p = lit "/a" ∨ p = lit "/a/target" ∨ p = lit "/a/L",
    isdir := fun p => p = lit "/" ∨ p = lit "/a",
    isfile := fun p => p = lit "/a/target",
    readlink := fun p => if p = lit "/a/L" then lit "target" else [] }

/-- A well-formed manifest line binding /a to basic-file. -/
def c9Line1 : Str := lit "/a\tbasic-file\t"

/-- A manifest line naming a handler absent from the registry. -/
def c9Line2 : Str := lit "/b\tbogus\t"

/-- A manifest input whose second line is bad. -/
def c9Input : Str := lit "/a\tbasic-file\t\n/b\tbogus\t\n"

/-- The manifest state after loading the first line of c9Input. -/
def c9M2 : Manifest :=
  { files := [(lit "/a",
      some (mkHandlerInst (lit "basic-file") (lit "/a") [] []))],
    absolute := some true }

/-- A manifest binding /a to the handled-by-parent handler. -/
def c7M : Manifest :=
  { files := [(lit "/a",
      some (mkHandlerInst (lit "parent") (lit "/a") [] []))],
    absolute := some true }

/-- A manifest with an unbound entry ahead of a bound two-path
dependency cycle. -/
def c3Cex : Manifest :=
  { files :=
      [(lit "/c", none),
       (lit "/a",
        some { name := lit "git-clone", filepath := lit "/a", args := [],
               kwargs := [], restoresContents := false,
               depends := [lit "/b"] }),
       (lit "/b",
        some { name := lit "git-clone", filepath := lit "/b", args := [],
               kwargs := [], restoresContents := false,
               depends := [lit "/a"] })],
    absolute := some true }

/-- A fully bound manifest whose two paths depend on each other. -/
def c3Wit : Manifest :=
  { files :=
      [(lit "/a",
        some { name := lit "git-clone", filepath := lit "/a", args := [],
               kwargs := [], restoresContents := false,
               depends := [lit "/b"] }),
       (lit "/b",
        some { name := lit "git-clone", filepath := lit "/b", args := [],
               kwargs := [], restoresContents := false,
               depends := [lit "/a"] })],
    absolute := some true }

/-- A matcher class that never matches. -/
def c2KNone : HandlerKind :=
  { name := lit "pacman", restoresContents := false,
    matchFn := fun _ _ => none }

/-- A matcher class that matches every path with empty args. -/
def c2KAll : HandlerKind :=
  { name := lit "basic-file", restoresContents := false,
    matchFn := fun _ _ => some ([], []) }

/-- A manifest whose only path is the filesystem root. -/
def c4Cex : Manifest :=
  { files := [(lit "/",
      some (mkHandlerInst (lit "basic-directory") (lit "/") [] []))],
    absolute := some true }

/-- Extra data for the root-path counterexample: a single mode key. -/
def c4ExtraOf : Str → List (Str × Str) := fun _ => [(lit "mode", lit "493")]

instance argWfDec (a : Str) : Decidable (argWf a) := by
  unfold argWf; infer_instance

instance kwargWfDec (kv : Str × Str) : Decidable (kwargWf kv) := by
  unfold kwargWf; infer_instance

instance instWfDec (h : HandlerInst) : Decidable (instWf h) := by
  unfold instWf; infer_instance

instance keyWfDec (cwd : Str) (b : Bool) (p : Str) : Decidable (keyWf cwd b p) := by
  unfold keyWf; infer_instance

instance manifestWfDec (cwd : Str) (m : Manifest) : Decidable (manifestWf cwd m) := by
  unfold manifestWf; infer_instance

instance archKeyOkDec (p : Str) : Decidable (archKeyOk p) := by
  unfold archKeyOk; infer_instance

instance extraKeyWfDec (k : Str) : Decidable (extraKeyWf k) := by
  unfold extraKeyWf; infer_instance

/-! Supporting lemmas: splitting, dictionaries, permutations. -/

theorem pySplit_ne_nil (sep : Char) (s : Str) : pySplit sep s ≠ [] := by
  induction s with
  | nil => simp [pySplit]
  | cons c rest ih =>
    simp only [pySplit]
    split
    · simp
    · cases h : pySplit sep rest <;> simp

theorem pySplit_eq_single (sep : Char) (s : Str) (h : sep ∉ s) :
    pySplit sep s = [s] := by
  induction s with
  | nil => rfl
  | cons c rest ih =>
    have hc : ¬ c = sep := fun he => h (he ▸ List.mem_cons_self c rest)
    have hr : sep ∉ rest := fun hm => h (List.mem_cons_of_mem c hm)
    simp only [pySplit, if_neg hc, ih hr]

theorem pySplit_append_sep (sep : Char) (a b : Str) (h : sep ∉ a) :
    pySplit sep (a ++ sep :: b) = a :: pySplit sep b := by
  induction a with
  | nil => simp [pySplit]
  | cons c a2 ih =>
    have hc : ¬ c = sep := fun he => h (he ▸ List.mem_cons_self c a2)
    have ha : sep ∉ a2 := fun hm => h (List.mem_cons_of_mem c hm)
    simp only [List.cons_append, pySplit, if_neg hc]
    rw [show a2.append (sep :: b) = a2 ++ sep :: b from rfl, ih ha]

theorem dictGet_dictSet_self (l : List (Str × α)) (k : Str) (v : α) :
    dictGet k (dictSet l k v) = some v := by
  induction l with
  | nil => simp [dictGet, dictSet]
  | cons e rest ih =>
    by_cases h : e.1 = k
    · simp [dictSet, dictGet, h]
    · simp [dictSet, dictGet, h, ih]

theorem dictGet_dictSet_ne (l : List (Str × α)) (k k2 : Str) (v : α)
    (h : k ≠ k2) : dictGet k2 (dictSet l k v) = dictGet k2 l := by
  induction l with
  | nil => simp [dictGet, dictSet, h]
  | cons e rest ih =>
    by_cases he : e.1 = k
    · simp [dictSet, dictGet, he, h, Ne.symm h]
    · by_cases he2 : e.1 = k2 <;>
        simp [dictSet, dictGet, he, he2, ih, Ne.symm h]

theorem dictGet_eq_none_iff (l : List (Str × α)) (k : Str) :
    dictGet k l = none ↔ k ∉ l.map Prod.fst := by
  induction l with
  | nil => exact ⟨fun _ => List.not_mem_nil k, fun _ => rfl⟩
  | cons e rest ih =>
    rw [dictGet]
    by_cases h : e.1 = k
    · rw [if_pos h]
      constructor
      · intro hh; exact Option.noConfusion hh
      · intro hh
        exact absurd (by rw [List.map_cons, h]; exact List.mem_cons_self k _) hh
    · rw [if_neg h, ih]
      constructor
      · intro hh hmem
        rcases List.mem_cons.mp (by rw [List.map_cons] at hmem; exact hmem) with h1 | h2
        · exact h h1.symm
        · exact hh h2
      · intro hh hmem
        exact hh (by rw [List.map_cons]; exact List.mem_cons_of_mem _ hmem)

theorem dictSet_eq_append (l : List (Str × α)) (k : Str) (v : α)
    (h : dictGet k l = none) : dictSet l k v = l ++ [(k, v)] := by
  induction l with
  | nil => rfl
  | cons e rest ih =>
    simp only [dictGet] at h
    by_cases he : e.1 = k
    · simp [he] at h
    · simp only [dictGet, if_neg he] at h
      simp [dictSet, he, ih h]

theorem dictGet_append_left (l1 l2 : List (Str × α)) (k : Str)
    (h : dictGet k l1 = none) : dictGet k (l1 ++ l2) = dictGet k l2 := by
  induction l1 with
  | nil => rfl
  | cons e rest ih =>
    by_cases he : e.1 = k
    · simp [dictGet, he] at h
    · simp only [dictGet, if_neg he] at h
      simp [dictGet, he, ih h]

theorem dictGet_eq_of_perm (l1 l2 : List (Str × α)) (hp : l1.Perm l2)
    (nd : (l1.map Prod.fst).Nodup) (k : Str) :
    dictGet k l1 = dictGet k l2 := by
  induction hp with
  | nil => rfl
  | cons x _ ih =>
    simp only [List.map_cons, List.nodup_cons] at nd
    by_cases h : x.1 = k <;> simp [dictGet, h, ih nd.2]
  | swap x y l =>
    have hxy : y.1 ≠ x.1 := by
      simp only [List.map_cons, List.nodup_cons, List.mem_cons] at nd
      exact fun he => nd.1 (Or.inl he)
    by_cases hy : y.1 = k <;> by_cases hx : x.1 = k
    · exact absurd (hy.trans hx.symm) hxy
    · simp [dictGet, hy, hx]
    · simp [dictGet, hy, hx]
    · simp [dictGet, hy, hx]
  | trans h12 _ ih1 ih2 =>
    refine (ih1 nd).trans (ih2 ?_)
    exact ((h12.map Prod.fst).nodup_iff).mp nd

/-! Supporting lemmas: the string-escape codec. -/

theorem decodeFuel_cons_plain (f : Nat) (c : Char) (rest : Str)
    (h : ¬ c = bslash) :
    stringEscapeDecodeFuel (f + 1) (c :: rest) =
      (stringEscapeDecodeFuel f rest).map (c :: ·) := by
  simp [stringEscapeDecodeFuel, h]

theorem decodeFuel_bb (f : Nat) (rest : Str) :
    stringEscapeDecodeFuel (f + 1) (bslash :: bslash :: rest) =
      (stringEscapeDecodeFuel f rest).map (bslash :: ·) := by
  simp [stringEscapeDecodeFuel, bslash]

theorem decodeFuel_bq (f : Nat) (rest : Str) :
    stringEscapeDecodeFuel (f + 1) (bslash :: squote :: rest) =
      (stringEscapeDecodeFuel f rest).map (squote :: ·) := by
  simp [stringEscapeDecodeFuel, bslash, squote, dquote]

theorem decodeFuel_bt (f : Nat) (rest : Str) :
    stringEscapeDecodeFuel (f + 1) (bslash :: 't' :: rest) =
      (stringEscapeDecodeFuel f rest).map ('\t' :: ·) := by
  simp [stringEscapeDecodeFuel, bslash, squote, dquote]

theorem decodeFuel_bn (f : Nat) (rest : Str) :
    stringEscapeDecodeFuel (f + 1) (bslash :: 'n' :: rest) =
      (stringEscapeDecodeFuel f rest).map ('\n' :: ·) := by
  simp [stringEscapeDecodeFuel, bslash, squote, dquote]

theorem decodeFuel_br (f : Nat) (rest : Str) :
    stringEscapeDecodeFuel (f + 1) (bslash :: 'r' :: rest) =
      (stringEscapeDecodeFuel f rest).map ('\x0d' :: ·) := by
  simp [stringEscapeDecodeFuel, bslash, squote, dquote]

theorem decodeFuel_bx (f : Nat) (h1 h2 : Char) (v1 v2 : Nat) (rest : Str)
    (e1 : hexVal h1 = some v1) (e2 : hexVal h2 = some v2) :
    stringEscapeDecodeFuel (f + 1) (bslash :: 'x' :: h1 :: h2 :: rest) =
      (stringEscapeDecodeFuel f rest).map (Char.ofNat (v1 * 16 + v2) :: ·) := by
  simp [stringEscapeDecodeFuel, bslash, squote, dquote, e1, e2, isOctal]

theorem hexVal_hexDigit : ∀ n, n < 16 → hexVal (hexDigit n) = some n := by
  decide

theorem decodeFuel_encode (s : Str) : ∀ fuel, (∀ c ∈ s, c.toNat < 256) →
    (stringEscapeEncode s).length < fuel →
    stringEscapeDecodeFuel fuel (stringEscapeEncode s) = .ok s := by
  induction s with
  | nil =>
    intro fuel _ hf
    match fuel, hf with
    | f + 1, _ => simp [stringEscapeEncode, stringEscapeDecodeFuel]
  | cons c rest ih =>
    intro fuel hb hf
    have hc : c.toNat < 256 := hb c (List.mem_cons_self c rest)
    have hbr : ∀ d ∈ rest, d.toNat < 256 :=
      fun d hd => hb d (List.mem_cons_of_mem c hd)
    have henc : stringEscapeEncode (c :: rest) =
        escByte c ++ stringEscapeEncode rest := by
      simp [stringEscapeEncode]
    rw [henc] at hf ⊢
    by_cases h1 : c = bslash
    · have he : escByte c = [bslash, bslash] := by
        simp [escByte, bslash, squote, dquote, h1]
      rw [he] at hf ⊢
      subst h1
      match fuel, hf with
      | f + 1, hf =>
        rw [show ([bslash, bslash] : Str) ++ stringEscapeEncode rest =
          bslash :: bslash :: stringEscapeEncode rest from rfl]
        rw [decodeFuel_bb, ih f hbr (by simp at hf; omega)]
        rfl
    · by_cases h2 : c = squote
      · have he : escByte c = [bslash, squote] := by
          simp [escByte, bslash, squote, dquote, h1, h2]
        rw [he] at hf ⊢
        subst h2
        match fuel, hf with
        | f + 1, hf =>
          rw [show ([bslash, squote] : Str) ++ stringEscapeEncode rest =
            bslash :: squote :: stringEscapeEncode rest from rfl]
          rw [decodeFuel_bq, ih f hbr (by simp at hf; omega)]
          rfl
      · by_cases h3 : c = '\t'
        · have he : escByte c = [bslash, 't'] := by
            simp [escByte, bslash, squote, dquote, h1, h2, h3]
          rw [he] at hf ⊢
          subst h3
          match fuel, hf with
          | f + 1, hf =>
            rw [show ([bslash, 't'] : Str) ++ stringEscapeEncode rest =
              bslash :: 't' :: stringEscapeEncode rest from rfl]
            rw [decodeFuel_bt, ih f hbr (by simp at hf; omega)]
            rfl
        · by_cases h4 : c = '\n'
          · have he : escByte c = [bslash, 'n'] := by
              simp [escByte, bslash, squote, dquote, h1, h2, h3, h4]
            rw [he] at hf ⊢
            subst h4
            match fuel, hf with
            | f + 1, hf =>
              rw [show ([bslash, 'n'] : Str) ++ stringEscapeEncode rest =
                bslash :: 'n' :: stringEscapeEncode rest from rfl]
              rw [decodeFuel_bn, ih f hbr (by simp at hf; omega)]
              rfl
          · by_cases h5 : c = '\x0d'
            · have he : escByte c = [bslash, 'r'] := by
                simp [escByte, bslash, squote, dquote, h1, h2, h3, h4, h5]
              rw [he] at hf ⊢
              subst h5
              match fuel, hf with
              | f + 1, hf =>
                rw [show ([bslash, 'r'] : Str) ++ stringEscapeEncode rest =
                  bslash :: 'r' :: stringEscapeEncode rest from rfl]
                rw [decodeFuel_br, ih f hbr (by simp at hf; omega)]
                rfl
            · by_cases h6 : c.toNat < 32 ∨ 127 ≤ c.toNat
              · have he : escByte c = [bslash, 'x',
                    hexDigit (c.toNat % 256 / 16), hexDigit (c.toNat % 16)] := by
                  rw [escByte, if_neg h1, if_neg h2, if_neg h3, if_neg h4,
                    if_neg h5, if_pos h6]
                rw [he] at hf ⊢
                match fuel, hf with
                | f + 1, hf =>
                  rw [show ([bslash, 'x', hexDigit (c.toNat % 256 / 16),
                      hexDigit (c.toNat % 16)] : Str) ++ stringEscapeEncode rest =
                    bslash :: 'x' :: hexDigit (c.toNat % 256 / 16) ::
                      hexDigit (c.toNat % 16) :: stringEscapeEncode rest from rfl]
                  rw [decodeFuel_bx f _ _ (c.toNat % 256 / 16) (c.toNat % 16) _
                    (hexVal_hexDigit _ (by omega)) (hexVal_hexDigit _ (by omega))]
                  rw [ih f hbr (by simp at hf; omega)]
                  have hv : c.toNat % 256 / 16 * 16 + c.toNat % 16 = c.toNat := by
                    rw [Nat.mod_eq_of_lt hc]
                    omega
                  rw [hv, Char.ofNat_toNat]
                  rfl
              · have he : escByte c = [c] := by
                  rw [escByte, if_neg h1, if_neg h2, if_neg h3, if_neg h4,
                    if_neg h5, if_neg h6]
                rw [he] at hf ⊢
                match fuel, hf with
                | f + 1, hf =>
                  rw [show ([c] : Str) ++ stringEscapeEncode rest =
                    c :: stringEscapeEncode rest from rfl]
                  rw [decodeFuel_cons_plain f c _ h1,
                    ih f hbr (by simp at hf; omega)]
                  rfl

/-- The serialization codec round trip: decoding an encoded byte string
gives it back. -/
theorem stringEscape_roundtrip (s : Str) (h : ∀ c ∈ s, c.toNat < 256) :
    stringEscapeDecode (stringEscapeEncode s) = .ok s :=
  decodeFuel_encode s _ h (Nat.lt_succ_self _)

/-- Encoded paths contain no tab and no newline, so the dump line fields
stay intact. -/
theorem hexDigit_ne_tab_nl :
    ∀ n, n < 16 → ¬ hexDigit n = '\t' ∧ ¬ hexDigit n = '\n' := by
  decide

theorem escByte_no_tab_nl (c : Char) :
    ∀ d ∈ escByte c, ¬ d = '\t' ∧ ¬ d = '\n' := by
  intro d hd
  have hdiv : c.toNat % 256 / 16 < 16 := by omega
  have hmod : c.toNat % 16 < 16 := by omega
  unfold escByte at hd
  by_cases h1 : c = bslash
  · rw [if_pos h1] at hd
    simp only [List.mem_cons, List.not_mem_nil, or_false] at hd
    rcases hd with rfl | rfl <;> exact (by decide)
  · rw [if_neg h1] at hd
    by_cases h2 : c = squote
    · rw [if_pos h2] at hd
      simp only [List.mem_cons, List.not_mem_nil, or_false] at hd
      rcases hd with rfl | rfl <;> exact (by decide)
    · rw [if_neg h2] at hd
      by_cases h3 : c = '\t'
      · rw [if_pos h3] at hd
        simp only [List.mem_cons, List.not_mem_nil, or_false] at hd
        rcases hd with rfl | rfl <;> exact (by decide)
      · rw [if_neg h3] at hd
        by_cases h4 : c = '\n'
        · rw [if_pos h4] at hd
          simp only [List.mem_cons, List.not_mem_nil, or_false] at hd
          rcases hd with rfl | rfl <;> exact (by decide)
        · rw [if_neg h4] at hd
          by_cases h5 : c = '\x0d'
          · rw [if_pos h5] at hd
            simp only [List.mem_cons, List.not_mem_nil, or_false] at hd
            rcases hd with rfl | rfl <;> exact (by decide)
          · rw [if_neg h5] at hd
            by_cases h6 : c.toNat < 32 ∨ 127 ≤ c.toNat
            · rw [if_pos h6] at hd
              simp only [List.mem_cons, List.not_mem_nil, or_false] at hd
              rcases hd with rfl | rfl | rfl | rfl
              · exact (by decide)
              · exact (by decide)
              · exact hexDigit_ne_tab_nl _ hdiv
              · exact hexDigit_ne_tab_nl _ hmod
            · rw [if_neg h6] at hd
              simp only [List.mem_cons, List.not_mem_nil, or_false] at hd
              subst hd
              refine ⟨fun hh => h6 ?_, fun hh => h6 ?_⟩ <;>
                rw [hh] <;> exact Or.inl (by decide)

/-! Supporting lemmas: argument-string round trip. -/

theorem registry_names_ok : ∀ n ∈ registryNames,
    '\t' ∉ n ∧ '\n' ∉ n ∧ n ≠ lit "none" ∧ n ≠ [] := by
  decide

theorem pyStrip_space_cons (x : Str) : pyStrip (' ' :: x) = pyStrip x := by
  simp [pyStrip, List.dropWhile, isPySpace]

theorem takeWhile_until (k v : Str) (h : '=' ∉ k) :
    (k ++ '=' :: v).takeWhile (fun c => !decide (c = '=')) = k := by
  induction k with
  | nil => simp
  | cons c k2 ih =>
    have hc : ¬ c = '=' := fun he => h (he ▸ List.mem_cons_self c k2)
    have h2 : '=' ∉ k2 := fun hm => h (List.mem_cons_of_mem c hm)
    simp [hc, ih h2]

theorem dropWhile_until (k v : Str) (h : '=' ∉ k) :
    (k ++ '=' :: v).dropWhile (fun c => !decide (c = '=')) = '=' :: v := by
  induction k with
  | nil => simp
  | cons c k2 ih =>
    have hc : ¬ c = '=' := fun he => h (he ▸ List.mem_cons_self c k2)
    have h2 : '=' ∉ k2 := fun hm => h (List.mem_cons_of_mem c hm)
    simp [hc, ih h2]

theorem pyJoinS_mem (sep : Str) (l : List Str) (c : Char)
    (hc : c ∈ pyJoinS sep l) : c ∈ sep ∨ ∃ x ∈ l, c ∈ x := by
  induction l with
  | nil => cases hc
  | cons x xs ih =>
    match xs, hc with
    | [], hc => exact Or.inr ⟨x, List.mem_cons_self x [], hc⟩
    | y :: ys, hc =>
      rw [show pyJoinS sep (x :: y :: ys) = x ++ sep ++ pyJoinS sep (y :: ys)
        from rfl] at hc
      rcases List.mem_append.mp hc with h1 | h2
      · rcases List.mem_append.mp h1 with h3 | h4
        · exact Or.inr ⟨x, List.mem_cons_self x _, h3⟩
        · exact Or.inl h4
      · rcases ih h2 with h3 | ⟨z, hz, hcz⟩
        · exact Or.inl h3
        · exact Or.inr ⟨z, List.mem_cons_of_mem x hz, hcz⟩

theorem pySplit_cons_head (sep c : Char) (s : Str) (h : ¬ c = sep)
    (head : Str) (tail : List Str) (hs : pySplit sep s = head :: tail) :
    pySplit sep (c :: s) = (c :: head) :: tail := by
  simp [pySplit, h, hs]

/-- Splitting the comma-space join of comma-free items: the first item is
returned as is, the rest keep their leading space. -/
theorem split_join_commas : ∀ (items : List Str), (∀ x ∈ items, ',' ∉ x) →
    pySplit ',' (pyJoinS (lit ", ") items) =
      match items with
      | [] => [[]]
      | x :: rest => x :: rest.map (fun y => ' ' :: y) := by
  intro items
  induction items with
  | nil => intro _; rfl
  | cons x xs ih =>
    intro hfree
    have hx : ',' ∉ x := hfree x (List.mem_cons_self x xs)
    match xs, ih with
    | [], _ => exact pySplit_eq_single ',' x hx
    | y :: ys, ih =>
      have hfree2 : ∀ z ∈ y :: ys, ',' ∉ z :=
        fun z hz => hfree z (List.mem_cons_of_mem x hz)
      have hrec := ih hfree2
      have hj : pyJoinS (lit ", ") (x :: y :: ys) =
          x ++ ',' :: ' ' :: pyJoinS (lit ", ") (y :: ys) := by
        show x ++ lit ", " ++ pyJoinS (lit ", ") (y :: ys) = _
        rw [List.append_assoc]
        rfl
      rw [hj]
      rw [pySplit_append_sep ',' x _ hx]
      have hy : ¬ (' ' : Char) = ',' := by decide
      rw [pySplit_cons_head ',' ' ' _ hy y (List.map (fun y => ' ' :: y) ys) hrec]
      rfl

theorem parseArgStep_pos (acc : List Str × List (Str × Str)) (t a : Str)
    (ht : t = a ∨ t = ' ' :: a) (ha : argWf a) :
    parseArgStep acc t = (acc.1 ++ [a], acc.2) := by
  obtain ⟨-, -, hne, -, -, hstrip⟩ := ha
  have hmem : '=' ∉ t := by
    rcases ht with rfl | rfl
    · exact hne
    · intro hm
      rcases List.mem_cons.mp hm with h | h
      · exact absurd h (by decide)
      · exact hne h
  have hstrip2 : pyStrip t = a := by
    rcases ht with rfl | rfl
    · exact hstrip
    · rw [pyStrip_space_cons]; exact hstrip
  simp [parseArgStep, hmem, hstrip2]

theorem parseArgStep_kw (acc : List Str × List (Str × Str)) (t k v : Str)
    (ht : t = k ++ '=' :: v ∨ t = ' ' :: (k ++ '=' :: v))
    (hkv : kwargWf (k, v)) :
    parseArgStep acc t = (acc.1, dictSet acc.2 k v) := by
  obtain ⟨-, hkeq, -, -, hks, -, -, -, hvs⟩ := hkv
  rcases ht with rfl | rfl
  · have hmem : '=' ∈ k ++ '=' :: v :=
      List.mem_append.mpr (Or.inr (List.mem_cons_self _ _))
    simp only [parseArgStep, if_pos hmem, ne_eq, decide_not]
    rw [takeWhile_until k v hkeq, dropWhile_until k v hkeq]
    rw [show ((('=' :: v) : Str).drop 1) = v from rfl]
    rw [hks, hvs]
  · have hmem : '=' ∈ ' ' :: (k ++ '=' :: v) :=
      List.mem_cons_of_mem _
        (List.mem_append.mpr (Or.inr (List.mem_cons_self _ _)))
    simp only [parseArgStep, if_pos hmem, ne_eq, decide_not]
    have hsp : (!decide ((' ' : Char) = '=')) = true := by decide
    rw [List.takeWhile_cons, if_pos hsp, List.dropWhile_cons, if_pos hsp]
    rw [takeWhile_until k v hkeq, dropWhile_until k v hkeq]
    rw [show ((('=' :: v) : Str).drop 1) = v from rfl]
    rw [pyStrip_space_cons, hks, hvs]

theorem dictSet_foldl_fresh (l : List (Str × α)) :
    ∀ (acc : List (Str × α)),
      (l.map Prod.fst).Nodup →
      (∀ k ∈ l.map Prod.fst, dictGet k acc = none) →
      l.foldl (fun d kv => dictSet d kv.1 kv.2) acc = acc ++ l := by
  induction l with
  | nil => intro acc _ _; simp
  | cons e rest ih =>
    intro acc hnd hfresh
    simp only [List.map_cons, List.nodup_cons] at hnd
    simp only [List.foldl_cons]
    have hset : dictSet acc e.1 e.2 = acc ++ [(e.1, e.2)] :=
      dictSet_eq_append acc e.1 e.2
        (hfresh e.1 (by rw [List.map_cons]; exact List.mem_cons_self _ _))
    rw [hset, ih (acc ++ [(e.1, e.2)]) hnd.2]
    · rw [List.append_assoc]; rfl
    · intro k hk
      rw [dictGet_append_left]
      · have hke : ¬ e.1 = k := fun he => hnd.1 (he ▸ hk)
        simp [dictGet, hke]
      · exact hfresh k (by rw [List.map_cons]; exact List.mem_cons_of_mem _ hk)

theorem argTokens_false_eq (kvs : List (Str × Str)) : ∀ (as : List Str),
    argTokens false as kvs = (as ++ kvs.map kwItem).map (fun y => ' ' :: y) := by
  intro as
  induction as with
  | nil =>
    induction kvs with
    | nil => simp [argTokens]
    | cons kv rest ih => simp [argTokens, ih]
  | cons a rest ih => simp [argTokens, ih]

theorem argTokens_true_eq (as : List Str) (kvs : List (Str × Str)) :
    argTokens true as kvs =
      match as ++ kvs.map kwItem with
      | [] => []
      | x :: rest => x :: rest.map (fun y => ' ' :: y) := by
  match as, kvs with
  | [], [] => simp [argTokens]
  | [], kv :: rest => simp [argTokens, argTokens_false_eq]
  | a :: as2, kvs => simp [argTokens, argTokens_false_eq]

theorem argTokens_ne_nil : ∀ (as : List Str) (kvs : List (Str × Str))
    (first : Bool), (∀ a ∈ as, argWf a) →
    ∀ t ∈ argTokens first as kvs, t ≠ [] := by
  intro as
  induction as with
  | nil =>
    intro kvs
    induction kvs with
    | nil =>
      intro first _ t ht
      simp [argTokens] at ht
    | cons kv rest ih =>
      intro first ha t ht
      simp only [argTokens] at ht
      rcases List.mem_cons.mp ht with rfl | h2
      · cases first <;> simp [kwItem]
      · exact ih false ha t h2
  | cons a rest ih =>
    intro kvs first ha t ht
    simp only [argTokens] at ht
    rcases List.mem_cons.mp ht with rfl | h2
    · have haw := ha a (List.mem_cons_self a rest)
      cases first
      · simp
      · simpa using haw.1
    · exact ih kvs false (fun x hx => ha x (List.mem_cons_of_mem a hx)) t h2

theorem argTokens_fold_kw : ∀ (kvs : List (Str × Str)) (first : Bool)
    (acc : List Str × List (Str × Str)), (∀ kv ∈ kvs, kwargWf kv) →
    (argTokens first [] kvs).foldl parseArgStep acc =
      (acc.1, kvs.foldl (fun d kv => dictSet d kv.1 kv.2) acc.2) := by
  intro kvs
  induction kvs with
  | nil => intro first acc _; simp [argTokens]
  | cons kv rest ih =>
    intro first acc hk
    simp only [argTokens, List.foldl_cons]
    rw [parseArgStep_kw acc _ kv.1 kv.2
      (by cases first
          · exact Or.inr rfl
          · exact Or.inl rfl)
      (hk kv (List.mem_cons_self _ _))]
    rw [ih false _ (fun x hx => hk x (List.mem_cons_of_mem _ hx))]

theorem argTokens_fold : ∀ (as : List Str) (kvs : List (Str × Str))
    (first : Bool) (acc : List Str × List (Str × Str)),
    (∀ a ∈ as, argWf a) → (∀ kv ∈ kvs, kwargWf kv) →
    (argTokens first as kvs).foldl parseArgStep acc =
      (acc.1 ++ as, kvs.foldl (fun d kv => dictSet d kv.1 kv.2) acc.2) := by
  intro as
  induction as with
  | nil =>
    intro kvs first acc _ hk
    rw [argTokens_fold_kw kvs first acc hk]
    simp
  | cons a rest ih =>
    intro kvs first acc ha hk
    simp only [argTokens, List.foldl_cons]
    rw [parseArgStep_pos acc _ a
      (by cases first
          · exact Or.inr rfl
          · exact Or.inl rfl)
      (ha a (List.mem_cons_self _ _))]
    rw [ih kvs false _ (fun x hx => ha x (List.mem_cons_of_mem _ hx)) hk]
    simp

/-- Parsing the dumped argument string of a well-formed handler recovers
its arguments exactly. -/
theorem parseArgs_handlerArgstr (h : HandlerInst) (hw : instWf h) :
    parseArgs (handlerArgstr h) = (h.args, h.kwargs) := by
  obtain ⟨-, ha, hk, hnd, -⟩ := hw
  have hfree : ∀ x ∈ h.args ++ h.kwargs.map kwItem, ',' ∉ x := by
    intro x hx
    rcases List.mem_append.mp hx with h1 | h2
    · exact (ha x h1).2.1
    · obtain ⟨kv, hkv, rfl⟩ := List.mem_map.mp h2
      obtain ⟨hk1, -, -, -, -, hk2, -, -, -⟩ := hk kv hkv
      intro hc
      rcases List.mem_append.mp hc with h3 | h4
      · exact hk1 h3
      · rcases List.mem_cons.mp h4 with h5 | h6
        · exact absurd h5 (by decide)
        · exact hk2 h6
  have hsplit := split_join_commas _ hfree
  have hdict : h.kwargs.foldl (fun d kv => dictSet d kv.1 kv.2) [] = h.kwargs := by
    have := dictSet_foldl_fresh h.kwargs [] hnd (fun k _ => rfl)
    simpa using this
  cases hit : h.args ++ h.kwargs.map kwItem with
  | nil =>
    obtain ⟨h1, h2⟩ := List.append_eq_nil.mp hit
    have h3 : h.kwargs = [] := List.map_eq_nil_iff.mp h2
    rw [parseArgs, handlerArgstr, hit, h1, h3]
    rfl
  | cons x rest =>
    rw [parseArgs, handlerArgstr, hit]
    rw [hit] at hsplit
    rw [hsplit]
    rw [show (match x :: rest with
      | [] => ([[]] : List Str)
      | x :: rest => x :: List.map (fun y => ' ' :: y) rest) =
      x :: List.map (fun y => ' ' :: y) rest from rfl]
    have hform : (x :: rest.map (fun y => ' ' :: y)) =
        argTokens true h.args h.kwargs := by
      rw [argTokens_true_eq, hit]
    rw [hform]
    rw [List.filter_eq_self.mpr (fun t ht => by
      simpa using argTokens_ne_nil h.args h.kwargs true ha t ht)]
    rw [argTokens_fold h.args h.kwargs true ([], []) ha hk]
    rw [hdict]
    simp

/-! Supporting lemmas: line and manifest round trip. -/

theorem insortKey_perm (e : Str × Option HandlerInst) :
    ∀ (l : List (Str × Option HandlerInst)), (insortKey e l).Perm (e :: l) := by
  intro l
  induction l with
  | nil => exact List.Perm.refl _
  | cons x xs ih =>
    rw [insortKey]
    by_cases hlt : strLt e.1 x.1
    · rw [if_pos hlt]
    · rw [if_neg hlt]
      exact (List.Perm.cons x ih).trans (List.Perm.swap e x xs)

theorem sortFiles_perm (l : List (Str × Option HandlerInst)) :
    (sortFiles l).Perm l := by
  induction l with
  | nil => exact List.Perm.refl _
  | cons e rest ih =>
    rw [show sortFiles (e :: rest) = insortKey e (sortFiles rest) from rfl]
    exact (insortKey_perm e (sortFiles rest)).trans (List.Perm.cons e ih)

theorem handlerArgstr_no_tab_nl (h : HandlerInst) (hw : instWf h) :
    '\t' ∉ handlerArgstr h ∧ '\n' ∉ handlerArgstr h := by
  obtain ⟨-, ha, hk, -, -⟩ := hw
  have hmem : ∀ c, c ∈ handlerArgstr h → (c = '\t' ∨ c = '\n') → False := by
    intro c hc hcase
    rcases pyJoinS_mem _ _ c hc with h1 | ⟨z, hz, hcz⟩
    · rcases hcase with rfl | rfl <;> revert h1 <;> decide
    · rcases List.mem_append.mp hz with h2 | h3
      · obtain ⟨-, -, -, hta, hna, -⟩ := ha z h2
        rcases hcase with rfl | rfl
        · exact hta hcz
        · exact hna hcz
      · obtain ⟨kv, hkv, rfl⟩ := List.mem_map.mp h3
        obtain ⟨-, -, htk, hnk, -, -, htv, hnv, -⟩ := hk kv hkv
        rcases List.mem_append.mp hcz with h4 | h5
        · rcases hcase with rfl | rfl
          · exact htk h4
          · exact hnk h4
        · rcases List.mem_cons.mp h5 with h6 | h7
          · rcases hcase with rfl | rfl <;> exact absurd h6 (by decide)
          · rcases hcase with rfl | rfl
            · exact htv h7
            · exact hnv h7
  exact ⟨fun hc => hmem _ hc (Or.inl rfl), fun hc => hmem _ hc (Or.inr rfl)⟩

theorem encode_no_tab_nl (p : Str) :
    '\t' ∉ stringEscapeEncode p ∧ '\n' ∉ stringEscapeEncode p := by
  constructor <;> intro hc <;>
    obtain ⟨c, -, hcd⟩ := List.mem_flatMap.mp hc
  · exact (escByte_no_tab_nl c _ hcd).1 rfl
  · exact (escByte_no_tab_nl c _ hcd).2 rfl

/-- add_file on an already-normal key with overwrite and no symlink
following: the key is bound directly and the mode resolved. -/
theorem add_file_normal (fs : Fs) (cwd : Str) (m : Manifest) (p : Str)
    (hOpt : Option HandlerInst) (b : Bool) (hkey : keyWf cwd b p)
    (hm : m.absolute = some b ∨ m.absolute = none) :
    Manifest.add_file fs cwd 0 m p hOpt true false =
      ({ files := dictSet m.files p hOpt, absolute := some b }, [p]) := by
  obtain ⟨-, hnorm, hmode⟩ := hkey
  cases b
  · simp at hmode
    obtain ⟨habs0, hrel⟩ := hmode
    rcases hm with hm | hm
    · obtain ⟨mf, ma⟩ := m
      simp only at hm
      subst hm
      simp [Manifest.add_file, addFileM1, addFileKey, addFileFinish, hnorm, hrel]
    · obtain ⟨mf, ma⟩ := m
      simp only at hm
      subst hm
      simp [Manifest.add_file, addFileM1, addFileKey, addFileFinish, hnorm, hrel, habs0]
  · simp at hmode
    have habsp : abspath cwd p = p := by
      rw [abspath, if_pos hmode, hnorm]
    rcases hm with hm | hm
    · obtain ⟨mf, ma⟩ := m
      simp only at hm
      subst hm
      simp [Manifest.add_file, addFileM1, addFileKey, addFileFinish, hnorm, habsp, hmode]
    · obtain ⟨mf, ma⟩ := m
      simp only at hm
      subst hm
      simp [Manifest.add_file, addFileM1, addFileKey, addFileFinish, hnorm, habsp, hmode]

theorem parseArgs_nil : parseArgs [] = ([], []) := by
  rfl

/-- Loading the dumped line of a well-formed entry re-adds exactly that
entry. -/
theorem loadLine_entry (cwd : Str) (b : Bool) (m : Manifest)
    (e : Str × Option HandlerInst) (hkey : keyWf cwd b e.1)
    (hw : ∀ hh, e.2 = some hh → instWf hh)
    (hm : m.absolute = some b ∨ m.absolute = none) :
    loadLine cwd m (lineBody e) =
      ({ files := dictSet m.files e.1 (reconInst e), absolute := some b },
       none) := by
  have henc := encode_no_tab_nl e.1
  obtain ⟨ep, eh⟩ := e
  cases eh with
  | none =>
    have hsplit : pySplit '\t' (lineBody (ep, none)) =
        [stringEscapeEncode ep, lit "none", []] := by
      rw [show lineBody (ep, none) =
        stringEscapeEncode ep ++ '\t' :: (lit "none" ++ '\t' :: []) from rfl]
      rw [pySplit_append_sep '\t' _ _ henc.1]
      rw [pySplit_append_sep '\t' (lit "none") _ (by decide)]
      rfl
    rw [loadLine, hsplit]
    rw [show List.getD ([stringEscapeEncode ep, lit "none", []] ++
      List.replicate (3 - [stringEscapeEncode ep, lit "none", []].length) [])
      0 [] = stringEscapeEncode ep from rfl]
    rw [show List.getD ([stringEscapeEncode ep, lit "none", []] ++
      List.replicate (3 - [stringEscapeEncode ep, lit "none", []].length) [])
      1 [] = lit "none" from rfl]
    rw [show List.getD ([stringEscapeEncode ep, lit "none", []] ++
      List.replicate (3 - [stringEscapeEncode ep, lit "none", []].length) [])
      2 [] = [] from rfl]
    rw [stringEscape_roundtrip ep hkey.1]
    have haddf := add_file_normal dummyFs cwd m ep none b hkey hm
    simp [haddf, reconInst]
  | some hh =>
    have hwh := hw hh rfl
    have hreg := hwh.1
    have hargstr := handlerArgstr_no_tab_nl hh hwh
    obtain ⟨hnt, hnn, hnone, hne⟩ := registry_names_ok hh.name hreg
    have hsplit : pySplit '\t' (lineBody (ep, some hh)) =
        [stringEscapeEncode ep, hh.name, handlerArgstr hh] := by
      rw [show lineBody (ep, some hh) =
        stringEscapeEncode ep ++ '\t' :: (hh.name ++ '\t' :: handlerArgstr hh)
        from rfl]
      rw [pySplit_append_sep '\t' _ _ henc.1]
      rw [pySplit_append_sep '\t' hh.name _ hnt]
      rw [pySplit_eq_single '\t' _ hargstr.1]
    rw [loadLine, hsplit]
    rw [show List.getD ([stringEscapeEncode ep, hh.name, handlerArgstr hh] ++
      List.replicate
        (3 - [stringEscapeEncode ep, hh.name, handlerArgstr hh].length) [])
      0 [] = stringEscapeEncode ep from rfl]
    rw [show List.getD ([stringEscapeEncode ep, hh.name, handlerArgstr hh] ++
      List.replicate
        (3 - [stringEscapeEncode ep, hh.name, handlerArgstr hh].length) [])
      1 [] = hh.name from rfl]
    rw [show List.getD ([stringEscapeEncode ep, hh.name, handlerArgstr hh] ++
      List.replicate
        (3 - [stringEscapeEncode ep, hh.name, handlerArgstr hh].length) [])
      2 [] = handlerArgstr hh from rfl]
    rw [stringEscape_roundtrip ep hkey.1]
    have hbind := hwh.2.2.2.2
    have haddf := add_file_normal dummyFs cwd m ep
      (some (mkHandlerInst hh.name ep hh.args hh.kwargs)) b hkey hm
    simp [parseArgs_handlerArgstr hh hwh, hnone, hne, hreg, hbind, haddf,
      reconInst]

theorem loadLines_entries (cwd : Str) (b : Bool) :
    ∀ (entries : List (Str × Option HandlerInst)) (m : Manifest),
    (∀ e ∈ entries, keyWf cwd b e.1 ∧ ∀ hh, e.2 = some hh → instWf hh) →
    (m.absolute = some b ∨ m.absolute = none) →
    loadLines cwd m (entries.map lineBody) =
      (entries.foldl (fun mm e =>
        { files := dictSet mm.files e.1 (reconInst e), absolute := some b })
        m, none) := by
  intro entries
  induction entries with
  | nil => intro m _ _; rfl
  | cons e rest ih =>
    intro m hwf hm
    have he := hwf e (List.mem_cons_self e rest)
    rw [List.map_cons, loadLines, loadLine_entry cwd b m e he.1 he.2 hm]
    exact ih _ (fun x hx => hwf x (List.mem_cons_of_mem e hx)) (Or.inl rfl)

theorem foldl_append_flatten (f : α → List β) : ∀ (l : List α) (out : List β),
    l.foldl (fun o e => o ++ f e) out = out ++ (l.map f).flatten := by
  intro l
  induction l with
  | nil => intro out; simp
  | cons e rest ih => intro out; simp [ih]

theorem lineBody_ne_nil (e : Str × Option HandlerInst) : lineBody e ≠ [] := by
  obtain ⟨ep, eh⟩ := e
  cases eh <;> simp [lineBody]

theorem lineBody_no_nl (e : Str × Option HandlerInst)
    (hw : ∀ hh, e.2 = some hh → instWf hh) : '\n' ∉ lineBody e := by
  obtain ⟨ep, eh⟩ := e
  intro hc
  cases eh with
  | none =>
    rw [show lineBody (ep, none) =
      stringEscapeEncode ep ++ '\t' :: (lit "none" ++ '\t' :: []) from rfl] at hc
    rcases List.mem_append.mp hc with h1 | h2
    · exact (encode_no_tab_nl ep).2 h1
    · rcases List.mem_cons.mp h2 with h3 | h4
      · exact absurd h3 (by decide)
      · revert h4; decide
  | some hh =>
    have hwh := hw hh rfl
    obtain ⟨-, hnn, -, -⟩ := registry_names_ok hh.name hwh.1
    rw [show lineBody (ep, some hh) =
      stringEscapeEncode ep ++ '\t' :: (hh.name ++ '\t' :: handlerArgstr hh)
      from rfl] at hc
    rcases List.mem_append.mp hc with h1 | h2
    · exact (encode_no_tab_nl ep).2 h1
    · rcases List.mem_cons.mp h2 with h3 | h4
      · exact absurd h3 (by decide)
      · rcases List.mem_append.mp h4 with h5 | h6
        · exact hnn h5
        · rcases List.mem_cons.mp h6 with h7 | h8
          · exact absurd h7 (by decide)
          · exact (handlerArgstr_no_tab_nl hh hwh).2 h8

theorem splitLines_of_entries :
    ∀ (entries : List (Str × Option HandlerInst)),
    (∀ e ∈ entries, '\n' ∉ lineBody e) →
    (pySplit '\n' ((entries.map dumpLine).flatten)).filter
        (fun l => l ≠ []) = entries.map lineBody := by
  intro entries
  induction entries with
  | nil => intro _; rfl
  | cons e rest ih =>
    intro hnl
    rw [List.map_cons, List.flatten_cons]
    rw [show dumpLine e ++ (rest.map dumpLine).flatten =
      lineBody e ++ '\n' :: (rest.map dumpLine).flatten by
        rw [dumpLine, List.append_assoc]; rfl]
    rw [pySplit_append_sep '\n' _ _ (hnl e (List.mem_cons_self e rest))]
    rw [List.filter_cons]
    rw [if_pos (by simpa using lineBody_ne_nil e)]
    rw [ih (fun x hx => hnl x (List.mem_cons_of_mem e hx))]
    rfl

theorem manifest_fold_files (b : Bool) :
    ∀ (entries : List (Str × Option HandlerInst)) (macc : Manifest),
    (entries.foldl (fun mm e =>
      { files := dictSet mm.files e.1 (reconInst e), absolute := some b })
      macc).files =
    entries.foldl (fun fs e => dictSet fs e.1 (reconInst e)) macc.files := by
  intro entries
  induction entries with
  | nil => intro macc; rfl
  | cons e rest ih => intro macc; simp [ih]

theorem dictGet_map_recon :
    ∀ (l : List (Str × Option HandlerInst)) (q : Str),
    (dictGet q (l.map (fun e => (e.1, reconInst e)))).map
        (Option.map instNAK) =
      (dictGet q l).map (Option.map instNAK) := by
  intro l
  induction l with
  | nil => intro q; rfl
  | cons e rest ih =>
    intro q
    by_cases hq : e.1 = q
    · simp only [List.map_cons, dictGet, hq, if_pos rfl]
      obtain ⟨ep, eh⟩ := e
      cases eh <;> rfl
    · simp only [List.map_cons, dictGet, if_neg hq, ih]

/-- The dump and load round trip on a well-formed manifest: the load
raises nothing and every path carries the same handler name and
arguments (and unbound entries stay unbound). -/
theorem load_dump_roundtrip (cwd : Str) (m : Manifest)
    (hwf : manifestWf cwd m) :
    (Manifest.load cwd emptyManifest m.dump).2 = none ∧
    ∀ q, (Manifest.load cwd emptyManifest m.dump).1.lookupNAK q =
      m.lookupNAK q := by
  obtain ⟨hnd, hrnone, hrsome⟩ := hwf
  cases habs : m.absolute with
  | none =>
    have hfiles : m.files = [] := hrnone habs
    have hdump : m.dump = [] := by
      rw [Manifest.dump, hfiles]
      rfl
    rw [Manifest.load, hdump]
    refine ⟨rfl, fun q => ?_⟩
    rw [show (loadLines cwd emptyManifest ((pySplit '\n' []).filter
      (fun l => l ≠ []))).1 = emptyManifest from rfl]
    rw [Manifest.lookupNAK, Manifest.lookupNAK, hfiles]
    rfl
  | some b =>
    have hrest : ∀ e ∈ m.files, keyWf cwd b e.1 ∧
        ∀ h, e.2 = some h → instWf h := hrsome b habs
    set sorted := sortFiles m.files with hsorted
    have hperm : sorted.Perm m.files := sortFiles_perm m.files
    have hwfS : ∀ e ∈ sorted, keyWf cwd b e.1 ∧
        ∀ hh, e.2 = some hh → instWf hh :=
      fun e he => hrest e (hperm.mem_iff.mp he)
    have hdump : m.dump = (sorted.map dumpLine).flatten := by
      rw [Manifest.dump, foldl_append_flatten]
      rfl
    have hsplitL : (pySplit '\n' m.dump).filter (fun l => l ≠ []) =
        sorted.map lineBody := by
      rw [hdump]
      exact splitLines_of_entries sorted
        (fun e he => lineBody_no_nl e (hwfS e he).2)
    rw [Manifest.load, hsplitL]
    rw [loadLines_entries cwd b sorted emptyManifest hwfS (Or.inr rfl)]
    refine ⟨rfl, fun q => ?_⟩
    rw [Manifest.lookupNAK, manifest_fold_files]
    rw [show emptyManifest.files = [] from rfl]
    have hfold : sorted.foldl (fun fs e => dictSet fs e.1 (reconInst e)) [] =
        sorted.map (fun e => (e.1, reconInst e)) := by
      rw [show (fun (fs : List (Str × Option HandlerInst)) e =>
        dictSet fs e.1 (reconInst e)) = (fun fs e =>
          (fun d (kv : Str × Option HandlerInst) =>
            dictSet d kv.1 kv.2) fs ((fun e => (e.1, reconInst e)) e)) from rfl]
      rw [← List.foldl_map (fun e => (e.1, reconInst e))
        (fun d kv => dictSet d kv.1 kv.2) sorted []]
      have hndS : ((sorted.map (fun e => (e.1, reconInst e))).map
          Prod.fst).Nodup := by
        rw [List.map_map]
        have : (sorted.map Prod.fst).Nodup :=
          ((hperm.map Prod.fst).nodup_iff).mpr hnd
        simpa [Function.comp] using this
      exact (dictSet_foldl_fresh _ [] hndS (fun k _ => rfl)).trans (by simp)
    rw [hfold, dictGet_map_recon]
    rw [Manifest.lookupNAK]
    rw [dictGet_eq_of_perm sorted m.files hperm
      (((hperm.map Prod.fst).nodup_iff).mpr hnd) q]

/-! Supporting lemmas: absolute and relative paths. -/

theorem isAbs_append (a b : Str) (ha : a ≠ []) :
    isAbs (a ++ b) = isAbs a := by
  cases a with
  | nil => exact absurd rfl ha
  | cons c rest => rfl

theorem pySplit_sep_not_mem (sep : Char) (s : Str) :
    ∀ x ∈ pySplit sep s, sep ∉ x := by
  induction s with
  | nil =>
    intro x hx
    rw [show pySplit sep [] = [[]] from rfl] at hx
    rcases List.mem_cons.mp hx with rfl | h2
    · exact List.not_mem_nil sep
    · cases h2
  | cons c rest ih =>
    intro x hx
    rw [pySplit] at hx
    by_cases hc : c = sep
    · rw [if_pos hc] at hx
      rcases List.mem_cons.mp hx with rfl | h2
      · exact List.not_mem_nil sep
      · exact ih x h2
    · rw [if_neg hc] at hx
      rcases hsp : pySplit sep rest with _ | ⟨r, rs⟩
      · exact absurd hsp (pySplit_ne_nil sep rest)
      · rw [hsp] at hx
        rcases List.mem_cons.mp hx with rfl | h2
        · intro hmem
          rcases List.mem_cons.mp hmem with h3 | h4
          · exact hc h3.symm
          · exact ih r (hsp ▸ List.mem_cons_self r rs) h4
        · exact ih x (hsp ▸ List.mem_cons_of_mem r h2)

theorem normpathStep_mem (initialSlashes : Nat) :
    ∀ (comps : List Str) (acc : List Str),
    (∀ x ∈ acc, x ≠ [] ∧ '/' ∉ x) →
    (∀ x ∈ comps, '/' ∉ x) →
    ∀ x ∈ comps.foldl (normpathStep initialSlashes) acc,
      x ≠ [] ∧ '/' ∉ x := by
  intro comps
  induction comps with
  | nil => intro acc hacc _ x hx; exact hacc x hx
  | cons comp rest ih =>
    intro acc hacc hcomps x hx
    refine ih (normpathStep initialSlashes acc comp) ?_
      (fun y hy => hcomps y (List.mem_cons_of_mem comp hy)) x hx
    intro y hy
    rw [normpathStep] at hy
    split at hy
    · exact hacc y hy
    · split at hy
      · rcases List.mem_append.mp hy with h1 | h2
        · exact hacc y h1
        · rcases List.mem_cons.mp h2 with rfl | h3
          · rename_i hcond _
            push_neg at hcond
            exact ⟨hcond.1, hcomps _ (List.mem_cons_self _ rest)⟩
          · cases h3
      · split at hy
        · exact hacc y (List.dropLast_subset acc hy)
        · exact hacc y hy

theorem pyJoin_not_isAbs (l : List Str)
    (hl : ∀ x ∈ l, x ≠ [] ∧ '/' ∉ x) : isAbs (pyJoin '/' l) = false := by
  match l with
  | [] => rfl
  | [x] =>
    have := hl x (List.mem_cons_self x [])
    rw [show pyJoin '/' [x] = x from rfl]
    cases hx : x with
    | nil => exact absurd hx this.1
    | cons c rest =>
      have hc : ¬ c = '/' := fun he =>
        this.2 (hx ▸ he ▸ List.mem_cons_self c rest)
      simp [isAbs, hc]
  | x :: y :: ys =>
    have := hl x (List.mem_cons_self x _)
    rw [show pyJoin '/' (x :: y :: ys) = x ++ '/' :: pyJoin '/' (y :: ys)
      from rfl]
    rw [isAbs_append x _ this.1]
    cases hx : x with
    | nil => exact absurd hx this.1
    | cons c rest =>
      have hc : ¬ c = '/' := fun he =>
        this.2 (hx ▸ he ▸ List.mem_cons_self c rest)
      simp [isAbs, hc]

theorem normpathOut_isAbs_pos (k : Nat) (p : Str) :
    isAbs (normpathOut (k + 1) p) = true := by
  rw [normpathOut, List.replicate_succ, List.cons_append]
  rfl

theorem normpathOut_zero_isAbs (p : Str) :
    isAbs (normpathOut 0 p) = false := by
  rw [normpathOut, List.replicate_zero, List.nil_append]
  exact pyJoin_not_isAbs _ (normpathStep_mem 0 (pySplit '/' p) []
    (fun x hx => absurd hx (List.not_mem_nil x))
    (pySplit_sep_not_mem '/' p))

theorem initSlashes_pos (p : Str) (habs : isAbs p = true) :
    ∃ k, initSlashes p = k + 1 := by
  rw [initSlashes, if_pos habs]
  split
  · exact ⟨1, rfl⟩
  · exact ⟨0, rfl⟩

theorem initSlashes_zero (p : Str) (habs : isAbs p = false) :
    initSlashes p = 0 := by
  rw [initSlashes, if_neg (by rw [habs]; exact fun h => Bool.noConfusion h)]

theorem normpath_ne_nil (p : Str) : normpath p ≠ [] := by
  rw [normpath]
  split
  · decide
  · split
    · decide
    · rename_i h
      exact h

theorem normpath_isAbs (p : Str) : isAbs (normpath p) = isAbs p := by
  by_cases hp : p = []
  · rw [hp]; rfl
  · rw [normpath, if_neg hp]
    by_cases habs : isAbs p = true
    · obtain ⟨k, hk⟩ := initSlashes_pos p habs
      have hout : isAbs (normpathOut (initSlashes p) p) = true := by
        rw [hk]; exact normpathOut_isAbs_pos k p
      have hne : normpathOut (initSlashes p) p ≠ [] := by
        intro he; rw [he] at hout; exact Bool.noConfusion hout
      rw [if_neg hne, hout, habs]
    · have habs2 : isAbs p = false := Bool.eq_false_iff.mpr habs
      have hout : isAbs (normpathOut (initSlashes p) p) = false := by
        rw [initSlashes_zero p habs2]; exact normpathOut_zero_isAbs p
      rw [habs2]
      split
      · rfl
      · exact hout

theorem pjoin_isAbs_left (cwd b : Str) (hcwd : isAbs cwd = true)
    (hb : isAbs b = false) : isAbs (pjoin cwd b) = true := by
  have hne : cwd ≠ [] := by
    intro he
    rw [he] at hcwd
    exact absurd hcwd (by decide)
  rw [pjoin, if_neg (by rw [hb]; exact fun h => Bool.noConfusion h)]
  split
  · rw [isAbs_append cwd b hne, hcwd]
  · rw [isAbs_append cwd _ hne, hcwd]

theorem abspath_isAbs (cwd p : Str) (hcwd : isAbs cwd = true) :
    isAbs (abspath cwd p) = true := by
  rw [abspath]
  by_cases hp : isAbs p
  · rw [if_pos hp, normpath_isAbs, hp]
  · rw [if_neg hp, normpath_isAbs,
      pjoin_isAbs_left cwd p hcwd (Bool.eq_false_iff.mpr hp)]

theorem pjoin_not_isAbs (a b : Str) (ha : isAbs a = false)
    (hb : isAbs b = false) : isAbs (pjoin a b) = false := by
  rw [pjoin, if_neg (by rw [hb]; exact fun h => Bool.noConfusion h)]
  split
  · cases a with
    | nil => exact hb
    | cons c rest => exact ha
  · cases a with
    | nil => exact absurd rfl (by rename_i h; push_neg at h; exact h.1)
    | cons c rest => exact ha

theorem relList_not_isAbs (cwd p : Str) :
    ∀ x ∈ relList cwd p, isAbs x = false := by
  intro x hx
  rw [relList] at hx
  rcases List.mem_append.mp hx with h1 | h2
  · rw [List.eq_of_mem_replicate h1]
    rfl
  · have h3 := List.mem_of_mem_drop h2
    rw [relComps] at h3
    have h5 := List.mem_of_mem_filter h3
    have h6 := pySplit_sep_not_mem '/' _ x h5
    cases hx2 : x with
    | nil => rfl
    | cons c rest =>
      have hc : ¬ c = '/' := fun he =>
        h6 (hx2 ▸ he ▸ List.mem_cons_self c rest)
      simp [isAbs, hc]

theorem foldl_pjoin_not_isAbs (l : List Str) (acc : Str)
    (hacc : isAbs acc = false) (hl : ∀ y ∈ l, isAbs y = false) :
    isAbs (l.foldl pjoin acc) = false := by
  induction l generalizing acc with
  | nil => exact hacc
  | cons z zs ih =>
    rw [List.foldl_cons]
    exact ih (pjoin acc z)
      (pjoin_not_isAbs acc z hacc (hl z (List.mem_cons_self z zs)))
      (fun y hy => hl y (List.mem_cons_of_mem z hy))

theorem relpath_not_isAbs (cwd p r : Str) (h : relpath cwd p = some r) :
    isAbs r = false := by
  rw [relpath] at h
  split at h
  · exact absurd h (by simp)
  · split at h
    · rw [Option.some.injEq] at h
      subst h
      rfl
    · rw [Option.some.injEq] at h
      subst h
      exact foldl_pjoin_not_isAbs (relList cwd p) [] rfl
        (relList_not_isAbs cwd p)

theorem relpath_isSome_of_ne_nil (cwd p : Str) (hp : p ≠ []) :
    ∃ r, relpath cwd p = some r := by
  rw [relpath, if_neg hp]
  split
  · exact ⟨_, rfl⟩
  · exact ⟨_, rfl⟩

/-! Supporting lemmas: add_file mode commitment (claim C5). -/

theorem mem_dictSet (k : Str) (v : α) :
    ∀ (l : List (Str × α)) (e : Str × α),
    e ∈ dictSet l k v → e = (k, v) ∨ e ∈ l := by
  intro l
  induction l with
  | nil =>
    intro e he
    rw [dictSet] at he
    rcases List.mem_cons.mp he with rfl | h2
    · exact Or.inl rfl
    · cases h2
  | cons x xs ih =>
    intro e he
    rw [dictSet] at he
    split at he
    · rcases List.mem_cons.mp he with rfl | h2
      · exact Or.inl rfl
      · exact Or.inr (List.mem_cons_of_mem x h2)
    · rcases List.mem_cons.mp he with rfl | h2
      · exact Or.inr (List.mem_cons_self _ _)
      · rcases ih e h2 with h3 | h3
        · exact Or.inl h3
        · exact Or.inr (List.mem_cons_of_mem x h3)

theorem addFileM1_absolute (m : Manifest) (path0 : Str) :
    (addFileM1 m path0).absolute =
      if m.absolute = none then some (isAbs path0) else m.absolute := by
  rw [addFileM1]
  split
  · rfl
  · rfl

theorem addFileM1_absolute_ne_none (m : Manifest) (path0 : Str) :
    (addFileM1 m path0).absolute ≠ none := by
  rw [addFileM1_absolute]
  split
  · exact fun hc => Option.noConfusion hc
  · rename_i h
    exact h

theorem addFileM1_mem (m : Manifest) (path0 : Str)
    (e : Str × Option HandlerInst) (he : e ∈ (addFileM1 m path0).files) :
    e ∈ m.files := by
  rw [addFileM1] at he
  split at he
  · exact he
  · exact he

theorem addFileKey_isAbs (cwd : Str) (hcwd : isAbs cwd = true)
    (m1 : Manifest) (path0 : Str) (b : Bool)
    (hb : m1.absolute = some b) :
    isAbs (addFileKey cwd m1 path0) = b := by
  rw [addFileKey]
  cases b
  · rw [if_neg (by rw [hb]; decide)]
    obtain ⟨r, hr⟩ := relpath_isSome_of_ne_nil cwd (normpath path0)
      (normpath_ne_nil path0)
    rw [hr, Option.getD_some]
    exact relpath_not_isAbs cwd (normpath path0) r hr
  · rw [if_pos (by rw [hb])]
    exact abspath_isAbs cwd (normpath path0) hcwd

theorem addFileFinish_mode (path : Str) (hh : Option HandlerInst)
    (ow : Bool) (st : Manifest × List Str) (b : Bool)
    (hst : st.1.absolute = some b ∧ ∀ e ∈ st.1.files, isAbs e.1 = b)
    (hkey : isAbs path = b) :
    (addFileFinish path hh ow st).1.absolute = some b ∧
    ∀ e ∈ (addFileFinish path hh ow st).1.files, isAbs e.1 = b := by
  rw [addFileFinish]
  split
  · refine ⟨hst.1, ?_⟩
    intro e he
    rcases mem_dictSet path hh st.1.files e he with rfl | h2
    · exact hkey
    · exact hst.2 e h2
  · exact hst

theorem add_file_mode (fs : Fs) (cwd : Str) (hcwd : isAbs cwd = true) :
    ∀ (fuel : Nat) (m : Manifest) (path0 : Str) (hh : Option HandlerInst)
      (ow fl : Bool) (b : Bool),
    (addFileM1 m path0).absolute = some b →
    (∀ e ∈ m.files, isAbs e.1 = b) →
    (Manifest.add_file fs cwd fuel m path0 hh ow fl).1.absolute = some b ∧
    ∀ e ∈ (Manifest.add_file fs cwd fuel m path0 hh ow fl).1.files,
      isAbs e.1 = b := by
  intro fuel
  induction fuel with
  | zero =>
    intro m path0 hh ow fl b hb hm
    rw [Manifest.add_file]
    refine addFileFinish_mode _ hh ow _ b ?_
      (addFileKey_isAbs cwd hcwd _ path0 b hb)
    split
    · split
      · exact ⟨hb, fun e he => hm e (addFileM1_mem m path0 e he)⟩
      · exact ⟨hb, fun e he => hm e (addFileM1_mem m path0 e he)⟩
    · exact ⟨hb, fun e he => hm e (addFileM1_mem m path0 e he)⟩
  | succ fuel2 ih =>
    intro m path0 hh ow fl b hb hm
    rw [Manifest.add_file]
    refine addFileFinish_mode _ hh ow _ b ?_
      (addFileKey_isAbs cwd hcwd _ path0 b hb)
    split
    · split
      · exact ih (addFileM1 m path0) _ none false fl b
          (by rw [addFileM1_absolute,
            if_neg (addFileM1_absolute_ne_none m path0)]; exact hb)
          (fun e he => hm e (addFileM1_mem m path0 e he))
      · exact ⟨hb, fun e he => hm e (addFileM1_mem m path0 e he)⟩
    · exact ⟨hb, fun e he => hm e (addFileM1_mem m path0 e he)⟩

theorem runAddScript_mode (fs : Fs) (cwd : Str) (hcwd : isAbs cwd = true) :
    ∀ (calls : List AddCall) (m : Manifest) (b : Bool),
    m.absolute = some b →
    (∀ e ∈ m.files, isAbs e.1 = b) →
    (runAddScript fs cwd m calls).absolute = some b ∧
    ∀ e ∈ (runAddScript fs cwd m calls).files, isAbs e.1 = b := by
  intro calls
  induction calls with
  | nil =>
    intro m b hb hm
    exact ⟨hb, hm⟩
  | cons c rest ih =>
    intro m b hb hm
    rw [runAddScript]
    have h1 := add_file_mode fs cwd hcwd c.fuel m c.path c.handler
      c.overwrite c.follow b
      (by rw [addFileM1_absolute,
        if_neg (by rw [hb]; exact fun hc => Option.noConfusion hc)]
          exact hb) hm
    exact ih _ b h1.1 h1.2

/-! Claim C5: mode commitment. -/

/-- Claim C5: for every sequence of add_file calls on a fresh manifest
(run under an absolute working directory, as os.getcwd() guarantees),
the absolute/relative mode is fixed by the first path added: the
manifest's mode flag equals the absoluteness of the first raw path, and
every key in the final manifest is absolute exactly when that first path
was absolute, regardless of the form of any later path argument. -/
theorem c5_mode_commitment (fs : Fs) (cwd : Str) (hcwd : isAbs cwd = true)
    (c : AddCall) (calls : List AddCall) :
    (runAddScript fs cwd emptyManifest (c :: calls)).absolute =
      some (isAbs c.path) ∧
    ∀ e ∈ (runAddScript fs cwd emptyManifest (c :: calls)).files,
      isAbs e.1 = isAbs c.path := by
  rw [runAddScript]
  have h1 := add_file_mode fs cwd hcwd c.fuel emptyManifest c.path c.handler
    c.overwrite c.follow (isAbs c.path)
    (by rw [addFileM1_absolute]; rfl)
    (fun e he => absurd he (List.not_mem_nil e))
  exact runAddScript_mode fs cwd hcwd calls _ (isAbs c.path) h1.1 h1.2

/-- Claim C5 witness: a concrete two-call run, an absolute first path
followed by a relative one, lands both keys absolute. -/
theorem c5_mode_commitment_witness :
    isAbs (lit "/c") = true ∧
    ((runAddScript dummyFs (lit "/c") emptyManifest
        [⟨lit "/a", none, true, false, 0⟩,
         ⟨lit "b", none, true, false, 0⟩]).absolute =
      some (isAbs (lit "/a")) ∧
    ∀ e ∈ (runAddScript dummyFs (lit "/c") emptyManifest
        [⟨lit "/a", none, true, false, 0⟩,
         ⟨lit "b", none, true, false, 0⟩]).files,
      isAbs e.1 = isAbs (lit "/a")) :=
  ⟨by decide, c5_mode_commitment dummyFs (lit "/c") (by decide)
    ⟨lit "/a", none, true, false, 0⟩ [⟨lit "b", none, true, false, 0⟩]⟩

/-! Claim C6: symlink target resolution. -/

/-- Claim C6, failing input: add_file on the symlink /a/L (link text
target, overwrite and follow_symlinks true, ample fuel) joins the link
text onto the link path itself - addFileLinked gives /a/L/target - rather
than onto the link's containing directory, so although the target the
claim describes (normalize(dirname(path) joined with the link text), here
/a/target) exists in the filesystem, the recursion is skipped and the
returned manifest and added list contain only the link, not the resolved
target. -/
theorem c6_symlink_target_join :
    Manifest.add_file c6Fs (lit "/c") 9 emptyManifest (lit "/a/L") none
        true true =
      ({ files := [(lit "/a/L", none)], absolute := some true },
        [lit "/a/L"]) ∧
    addFileLinked c6Fs (lit "/a/L") = lit "/a/L/target" ∧
    normpath (pjoin (dirname (lit "/a/L")) (lit "target")) = lit "/a/target" ∧
    c6Fs.fexists (lit "/a/target") = true ∧
    c6Fs.fexists (lit "/a/L/target") = false ∧
    c6Fs.islink (lit "/a/L/target") = false := by
  decide

/-! Claim C9: whole-load failure without partial state. -/

/-- Claim C9, counterexample to the claim as stated: loading an input
whose second line names the unregistered handler bogus raises KeyError,
yet the manifest keeps the entry added by the first, well-formed line -
the load is fatal but the partial mutation persists (Python mutates the
manifest in place line by line and the raised exception undoes
nothing). -/
theorem c9_partial_load_counterexample :
    (Manifest.load (lit "/c") emptyManifest c9Input).2 =
      some (.keyError (lit "bogus")) ∧
    (Manifest.load (lit "/c") emptyManifest c9Input).1.lookupNAK (lit "/a") =
      some (some (lit "basic-file", [], [])) ∧
    (Manifest.load (lit "/c") emptyManifest c9Input).1 ≠ emptyManifest := by
  decide

/-- Claim C9, amended: load is fatal for the whole load - processing
stops at the first bad line and the error is raised - but the manifest
retains every mutation made by the lines before the bad one: the state
returned is exactly the state reached just before the bad line, further
mutated by nothing beyond that line's own failed processing. -/
theorem c9_partial_load (cwd : Str) (m m2 m3 : Manifest)
    (pre rest : List Str) (bad : Str) (e : PyErr)
    (hpre : loadLines cwd m pre = (m2, none))
    (hbad : loadLine cwd m2 bad = (m3, some e)) :
    loadLines cwd m (pre ++ bad :: rest) = (m3, some e) := by
  induction pre generalizing m with
  | nil =>
    rw [loadLines] at hpre
    injection hpre with h1 h2
    subst h1
    rw [List.nil_append, loadLines, hbad]
  | cons l ls ih =>
    rw [loadLines] at hpre
    rw [List.cons_append, loadLines]
    rcases hll : loadLine cwd m l with ⟨mm, oe⟩
    rw [hll] at hpre
    cases oe with
    | none => exact ih mm hpre
    | some e2 => exact Option.noConfusion (Prod.mk.inj hpre).2

/-- Claim C9 witness: the amended theorem at the concrete two-line
input, reproducing the counterexample's final state. -/
theorem c9_partial_load_witness :
    loadLines (lit "/c") emptyManifest [c9Line1] = (c9M2, none) ∧
    loadLine (lit "/c") c9M2 c9Line2 =
      (c9M2, some (.keyError (lit "bogus"))) ∧
    loadLines (lit "/c") emptyManifest [c9Line1, c9Line2] =
      (c9M2, some (.keyError (lit "bogus"))) :=
  ⟨by decide, by decide,
    c9_partial_load (lit "/c") emptyManifest c9M2 c9M2 [c9Line1] []
      c9Line2 (.keyError (lit "bogus")) (by decide) (by decide)⟩

/-! Claim C10: add_manifest requires every entry bound. -/

theorem addManifestLoop_ok (extraOf : Str → List (Str × Str)) :
    ∀ (l : List (Str × Option HandlerInst)) (ar : ArchiveW),
    ((addManifestLoop extraOf ar l).2 = none ↔ ∀ e ∈ l, e.2 ≠ none) := by
  intro l
  induction l with
  | nil =>
    intro ar
    constructor
    · intro _ e he
      cases he
    · intro _
      rfl
  | cons x rest ih =>
    intro ar
    rcases x with ⟨p, oh⟩
    cases oh with
    | none =>
      rw [addManifestLoop]
      constructor
      · intro hc
        exact Option.noConfusion hc
      · intro hall
        exact absurd rfl (hall (p, none) (List.mem_cons_self _ _))
    | some hh =>
      rw [addManifestLoop]
      constructor
      · intro h1 e he
        rcases List.mem_cons.mp he with rfl | h2
        · exact fun hc => Option.noConfusion hc
        · exact ((ih _).mp h1) e h2
      · intro hall
        exact (ih _).mpr (fun e he => hall e (List.mem_cons_of_mem _ he))

theorem addManifestLoop_err (extraOf : Str → List (Str × Str)) :
    ∀ (l : List (Str × Option HandlerInst)) (ar : ArchiveW),
    (∃ e ∈ l, e.2 = none) →
    (addManifestLoop extraOf ar l).2 =
      some (.attributeError (lit "NoneType has no get_extra_data")) := by
  intro l
  induction l with
  | nil =>
    intro ar h
    rcases h with ⟨e, he, -⟩
    cases he
  | cons x rest ih =>
    intro ar h
    rcases x with ⟨p, oh⟩
    cases oh with
    | none =>
      rw [addManifestLoop]
    | some hh =>
      rw [addManifestLoop]
      rcases h with ⟨e, he, hnone⟩
      rcases List.mem_cons.mp he with rfl | h2
      · exact Option.noConfusion hnone
      · exact ih _ ⟨e, h2, hnone⟩

/-- Claim C10: add_manifest requests extra data from each entry's
handler unconditionally, so it completes without error exactly when
every entry is bound, and the presence of any unbound entry (None
handler) makes it raise the AttributeError of calling get_extra_data on
None. -/
theorem c10_add_manifest_unbound (extraOf : Str → List (Str × Str))
    (ar : ArchiveW) (m : Manifest) :
    ((Archive.add_manifest extraOf ar m).2 = none ↔
      ∀ e ∈ m.files, e.2 ≠ none) ∧
    ((∃ e ∈ m.files, e.2 = none) →
      (Archive.add_manifest extraOf ar m).2 =
        some (.attributeError (lit "NoneType has no get_extra_data"))) :=
  ⟨addManifestLoop_ok extraOf m.files _,
   fun hex => addManifestLoop_err extraOf m.files _ hex⟩

/-- Claim C10 witness: the manifest with the unbound entry /b/a makes
add_manifest raise the AttributeError. -/
theorem c10_add_manifest_unbound_witness :
    (Archive.add_manifest (fun _ => []) emptyArchive c1Wit).2 =
      some (.attributeError (lit "NoneType has no get_extra_data")) :=
  (c10_add_manifest_unbound (fun _ => []) emptyArchive c1Wit).2
    ⟨(lit "/b/a", none), by decide, rfl⟩

/-! Claim C7: restore of a handled-by-parent path. -/

/-- Claim C7, failing behavior: for any path bound to the
handled-by-parent handler, Manifest.restore is not a no-op - it calls
handler.restore(extra_data) on a method declared def restore(self) with
no extra parameter, so the call raises TypeError instead of returning
normally, whatever the archive's extra data and however the other
handler classes dispatch. -/
theorem c7_parent_restore_typeerror
    (other : HandlerInst → List (Str × Str) → Except PyErr (List FsAction))
    (extraOf : Str → List (Str × Str)) (m : Manifest) (p : Str)
    (h : HandlerInst) (hbind : dictGet p m.files = some (some h))
    (hname : h.name = lit "parent") :
    Manifest.restore m extraOf (dispatchWithParent other) p =
      .error (.typeError (lit "restore takes exactly 1 argument, 2 given")) := by
  simp [Manifest.restore, hbind, dispatchWithParent, hname, PyMethod.call1,
    HandledByParent.restoreMethod]

/-- Claim C7 witness: the TypeError at the concrete manifest binding /a
to the parent handler. -/
theorem c7_parent_restore_typeerror_witness :
    Manifest.restore c7M (fun _ => []) (dispatchWithParent (fun _ _ => .ok []))
        (lit "/a") =
      .error (.typeError (lit "restore takes exactly 1 argument, 2 given")) :=
  c7_parent_restore_typeerror (fun _ _ => .ok []) (fun _ => []) c7M (lit "/a")
    (mkHandlerInst (lit "parent") (lit "/a") [] []) (by decide) (by decide)

/-! Claim C8: SavesFileInfo.restore chown behavior. -/

/-- Claim C8, failing inputs: with user alice (uid 1001) and group users
(gid 100) on the target system and a file currently owned by uid/gid
1000, restoring saved info naming alice/users does not chown by the
looked-up ids: the code binds the whole pwd/grp records, the record
compares unequal to the integer id, and os.chown on the records raises
TypeError.  With a saved owner name absent from the table, getpwnam's
KeyError escapes instead of falling back to the current uid.  The third
conjunct shows backup-time get_extra_data itself produces the
owner/group names of the first input, and the fourth shows the
mode-differs branch (the part of the claim about chmod) does re-apply
the saved mode. -/
theorem c8_restore_chown_bugs :
    SavesFileInfo.restore [⟨lit "alice", 1001⟩] [⟨lit "users", 100⟩]
        (lit "/f") ⟨420, 1000, 1000⟩
        ⟨420, some (lit "alice"), some (lit "users")⟩ =
      ([], some (.typeError (lit "an integer is required"))) ∧
    SavesFileInfo.restore [⟨lit "alice", 1001⟩] [⟨lit "users", 100⟩]
        (lit "/f") ⟨420, 1000, 1000⟩ ⟨420, some (lit "ghost"), none⟩ =
      ([], some (.keyError (lit "ghost"))) ∧
    SavesFileInfo.get_extra_data [⟨lit "alice", 1001⟩] [⟨lit "users", 100⟩]
        ⟨33188, 1001, 100⟩ =
      ⟨420, some (lit "alice"), some (lit "users")⟩ ∧
    SavesFileInfo.restore [⟨lit "alice", 1001⟩] [⟨lit "users", 100⟩]
        (lit "/f") ⟨493, 1000, 1000⟩ ⟨420, none, none⟩ =
      ([FsAction.chmod (lit "/f") 420], none) := by
  decide

/-! Supporting lemmas: dependency cycles (claim C3). -/

theorem exFold_ok (g : α → Except PyErr Unit) :
    ∀ l : List α, exFold g l = .ok () ↔ ∀ d ∈ l, g d = .ok () := by
  intro l
  induction l with
  | nil =>
    constructor
    · intro _ d hd
      cases hd
    · intro _
      rfl
  | cons d rest ih =>
    rw [exFold]
    rcases hg : g d with e | u
    · constructor
      · intro hc
        exact Except.noConfusion hc
      · intro hall
        rw [hall d (List.mem_cons_self d rest)] at hg
        exact Except.noConfusion hg
    · cases u
      constructor
      · intro hok d2 hd2
        rcases List.mem_cons.mp hd2 with rfl | h2
        · exact hg
        · exact ih.mp hok d2 h2
      · intro hall
        exact ih.mpr (fun d2 hd2 => hall d2 (List.mem_cons_of_mem d hd2))

theorem exFold_error (g : α → Except PyErr Unit) :
    ∀ (l : List α) (e : PyErr), exFold g l = .error e →
    ∃ d ∈ l, g d = .error e := by
  intro l
  induction l with
  | nil =>
    intro e he
    exact Except.noConfusion he
  | cons d rest ih =>
    intro e he
    rw [exFold] at he
    rcases hg : g d with e2 | u
    · rw [hg] at he
      refine ⟨d, List.mem_cons_self d rest, ?_⟩
      rw [hg, Except.error.injEq]
      exact Except.error.inj he
    · rw [hg] at he
      obtain ⟨d2, hd2, hgd2⟩ := ih e he
      exact ⟨d2, List.mem_cons_of_mem d hd2, hgd2⟩

theorem exFold_classify (g : α → Except PyErr Unit) :
    ∀ l : List α,
    (∀ d ∈ l, g d = .ok () ∨ ∃ ch, g d = .error (.dependencyCycle ch)) →
    exFold g l = .ok () ∨
      ∃ ch, exFold g l = .error (.dependencyCycle ch) := by
  intro l
  induction l with
  | nil =>
    intro _
    exact Or.inl rfl
  | cons d rest ih =>
    intro hall
    rw [exFold]
    rcases hall d (List.mem_cons_self d rest) with hok | ⟨ch, herr⟩
    · rw [hok]
      exact ih (fun d2 hd2 => hall d2 (List.mem_cons_of_mem d hd2))
    · rw [herr]
      exact Or.inr ⟨ch, rfl⟩

theorem dictGet_mem (k : Str) :
    ∀ (l : List (Str × α)) (v : α), dictGet k l = some v → (k, v) ∈ l := by
  intro l
  induction l with
  | nil =>
    intro v hv
    exact Option.noConfusion hv
  | cons e rest ih =>
    intro v hv
    rw [dictGet] at hv
    split at hv
    · rename_i he
      rw [Option.some.injEq] at hv
      subst hv
      rw [← he]
      exact List.mem_cons_self e rest
    · exact List.mem_cons_of_mem e (ih v hv)

theorem depEdge_elim (m : Manifest) (v w : Str) (h : depEdge m v w = true) :
    ∃ hh, dictGet v m.files = some (some hh) ∧ w ∈ hh.depends.map normpath := by
  rw [depEdge] at h
  rcases hdg : dictGet v m.files with _ | ob
  · rw [hdg] at h
    exact Bool.noConfusion h
  · rcases ob with _ | hh
    · rw [hdg] at h
      exact Bool.noConfusion h
    · rw [hdg] at h
      exact ⟨hh, rfl, of_decide_eq_true h⟩

theorem depEdge_intro (m : Manifest) (v w : Str) (hh : HandlerInst)
    (hdg : dictGet v m.files = some (some hh))
    (hw : w ∈ hh.depends.map normpath) : depEdge m v w = true := by
  rw [depEdge, hdg]
  exact decide_eq_true hw

theorem depChainOk_mem_succ (m : Manifest) :
    ∀ (l : List Str), depChainOk m l = true →
    ∀ v ∈ l.dropLast, ∃ w, w ∈ l ∧ depEdge m v w = true := by
  intro l
  induction l with
  | nil =>
    intro _ v hv
    cases hv
  | cons x rest ih =>
    intro H v hv
    cases rest with
    | nil => cases hv
    | cons y rest2 =>
      rw [depChainOk, Bool.and_eq_true] at H
      rcases List.mem_cons.mp hv with rfl | h2
      · exact ⟨y, List.mem_cons_of_mem _ (List.mem_cons_self y rest2), H.1⟩
      · obtain ⟨w, hw, he⟩ := ih H.2 v h2
        exact ⟨w, List.mem_cons_of_mem _ hw, he⟩

theorem isCycleIn_succ (m : Manifest) (c : List Str)
    (hc : isCycleIn m c = true) :
    ∀ v ∈ c, ∃ w, w ∈ c ∧ depEdge m v w = true := by
  intro v hv
  cases c with
  | nil => cases hv
  | cons v0 vs =>
    rw [isCycleIn] at hc
    have hdl : (v0 :: (vs ++ [v0])).dropLast = v0 :: vs := by
      rw [show v0 :: (vs ++ [v0]) = (v0 :: vs) ++ [v0] from by simp,
        List.dropLast_concat]
    obtain ⟨w, hw, he⟩ := depChainOk_mem_succ m (v0 :: (vs ++ [v0])) hc v
      (by rw [hdl]; exact hv)
    refine ⟨w, ?_, he⟩
    rcases List.mem_cons.mp hw with rfl | h2
    · exact List.mem_cons_self _ _
    · rcases List.mem_append.mp h2 with h3 | h3
      · exact List.mem_cons_of_mem v0 h3
      · rw [List.mem_singleton.mp h3]
        exact List.mem_cons_self _ _

theorem depChainOk_drop (m : Manifest) :
    ∀ (pre rest : List Str), depChainOk m (pre ++ rest) = true →
    depChainOk m rest = true := by
  intro pre
  induction pre with
  | nil =>
    intro rest h
    exact h
  | cons x xs ih =>
    intro rest h
    apply ih
    rcases hxr : xs ++ rest with _ | ⟨y, t⟩
    · rfl
    · rw [List.cons_append, hxr, depChainOk, Bool.and_eq_true] at h
      exact h.2

theorem depChainOk_snoc (m : Manifest) (w : Str) :
    ∀ (l : List Str) (u : Str), depChainOk m (l ++ [u]) = true →
    depEdge m u w = true → depChainOk m (l ++ [u, w]) = true := by
  intro l
  induction l with
  | nil =>
    intro u h1 h2
    rw [List.nil_append, depChainOk, Bool.and_eq_true]
    exact ⟨h2, rfl⟩
  | cons x xs ih =>
    intro u h1 h2
    cases xs with
    | nil =>
      rw [show ([x] ++ [u]) = x :: [u] from rfl, depChainOk,
        Bool.and_eq_true] at h1
      rw [show ([x] ++ [u, w]) = x :: u :: [w] from rfl, depChainOk,
        Bool.and_eq_true]
      refine ⟨h1.1, ?_⟩
      rw [depChainOk, Bool.and_eq_true]
      exact ⟨h2, rfl⟩
    | cons y ys =>
      rw [show ((x :: y :: ys) ++ [u]) = x :: y :: (ys ++ [u]) from rfl,
        depChainOk, Bool.and_eq_true] at h1
      rw [show ((x :: y :: ys) ++ [u, w]) = x :: y :: (ys ++ [u, w])
        from rfl, depChainOk, Bool.and_eq_true]
      exact ⟨h1.1, ih u h1.2 h2⟩

theorem checkCyclesFuel_zero (m : Manifest) (path : Str)
    (chain : List Str) :
    checkCyclesFuel m 0 path chain = .error .outOfFuel := rfl

theorem checkCyclesFuel_succ_none (m : Manifest) (fuel : Nat) (path : Str)
    (chain : List Str) (hdg : dictGet path m.files = none) :
    checkCyclesFuel m (fuel + 1) path chain = .ok () := by
  rw [checkCyclesFuel, hdg]

theorem checkCyclesFuel_succ_unbound (m : Manifest) (fuel : Nat)
    (path : Str) (chain : List Str)
    (hdg : dictGet path m.files = some none) :
    checkCyclesFuel m (fuel + 1) path chain =
      if path ∈ chain then .error (.dependencyCycle (chain ++ [path]))
      else .error (.attributeError (lit "NoneType has no get_depends")) := by
  rw [checkCyclesFuel, hdg]

theorem checkCyclesFuel_succ_bound (m : Manifest) (fuel : Nat) (path : Str)
    (chain : List Str) (hh : HandlerInst)
    (hdg : dictGet path m.files = some (some hh)) :
    checkCyclesFuel m (fuel + 1) path chain =
      if path ∈ chain then .error (.dependencyCycle (chain ++ [path]))
      else exFold
        (fun d => checkCyclesFuel m fuel (normpath d) (chain ++ [path]))
        hh.depends := by
  rw [checkCyclesFuel, hdg]

theorem cycle_extract (m : Manifest) (path : Str) (chain ch : List Str)
    (hwalk : depChainOk m (chain ++ [path]) = true)
    (hmem : path ∈ chain) (hch : chain ++ [path] = ch) :
    ∃ c2, c2 ≠ [] ∧ isCycleIn m c2 = true ∧ ∀ p ∈ c2, p ∈ ch := by
  obtain ⟨pre, suf, hsplit⟩ := List.append_of_mem hmem
  have hw2 : depChainOk m (pre ++ (path :: (suf ++ [path]))) = true := by
    have heq : chain ++ [path] = pre ++ (path :: (suf ++ [path])) := by
      rw [hsplit]
      simp
    rwa [heq] at hwalk
  refine ⟨path :: suf, by simp, ?_, ?_⟩
  · rw [isCycleIn]
    exact depChainOk_drop m pre _ hw2
  · intro p hp
    rw [← hch]
    rcases List.mem_cons.mp hp with rfl | h2
    · exact List.mem_append.mpr (Or.inr (List.mem_singleton.mpr rfl))
    · refine List.mem_append.mpr (Or.inl ?_)
      rw [hsplit]
      exact List.mem_append.mpr (Or.inr (List.mem_cons_of_mem path h2))

theorem checkCyclesFuel_cycle_not_ok (m : Manifest) (c : List Str)
    (hc : isCycleIn m c = true) :
    ∀ (fuel : Nat) (v : Str) (chain : List Str), v ∈ c →
    checkCyclesFuel m fuel v chain ≠ .ok () := by
  intro fuel
  induction fuel with
  | zero =>
    intro v chain _ hcontra
    rw [checkCyclesFuel_zero] at hcontra
    exact Except.noConfusion hcontra
  | succ fuel2 ih =>
    intro v chain hv hcontra
    obtain ⟨w, hwc, hvw⟩ := isCycleIn_succ m c hc v hv
    obtain ⟨hh, hdg, hwdep⟩ := depEdge_elim m v w hvw
    rw [checkCyclesFuel_succ_bound m fuel2 v chain hh hdg] at hcontra
    by_cases hmem : v ∈ chain
    · rw [if_pos hmem] at hcontra
      exact Except.noConfusion hcontra
    · rw [if_neg hmem] at hcontra
      obtain ⟨d, hd, hnd⟩ := List.mem_map.mp hwdep
      have hcall := (exFold_ok _ hh.depends).mp hcontra d hd
      rw [hnd] at hcall
      exact ih w (chain ++ [v]) hwc hcall

theorem checkCyclesFuel_classify (m : Manifest)
    (hbound : ∀ e ∈ m.files, e.2 ≠ none) :
    ∀ (fuel : Nat) (path : Str) (chain : List Str),
    chain.Nodup → (∀ x ∈ chain, x ∈ m.files.map Prod.fst) →
    m.files.length + 1 ≤ fuel + chain.length →
    checkCyclesFuel m fuel path chain = .ok () ∨
    ∃ ch, checkCyclesFuel m fuel path chain = .error (.dependencyCycle ch) := by
  intro fuel
  induction fuel with
  | zero =>
    intro path chain hnd hsub hle
    exfalso
    have hsp := List.subperm_of_subset hnd hsub
    have hlen := hsp.length_le
    rw [List.length_map] at hlen
    omega
  | succ fuel2 ih =>
    intro path chain hnd hsub hle
    rcases hdg : dictGet path m.files with _ | binding
    · rw [checkCyclesFuel_succ_none m fuel2 path chain hdg]
      exact Or.inl rfl
    · cases binding with
      | none =>
        exfalso
        exact hbound (path, none) (dictGet_mem path m.files none hdg) rfl
      | some hh =>
        rw [checkCyclesFuel_succ_bound m fuel2 path chain hh hdg]
        by_cases hmem : path ∈ chain
        · rw [if_pos hmem]
          exact Or.inr ⟨chain ++ [path], rfl⟩
        · rw [if_neg hmem]
          apply exFold_classify
          intro d hd
          have hkey : path ∈ m.files.map Prod.fst :=
            List.mem_map_of_mem Prod.fst (dictGet_mem path m.files _ hdg)
          refine ih (normpath d) (chain ++ [path]) ?_ ?_ ?_
          · rw [List.nodup_append]
            exact ⟨hnd, List.nodup_singleton path,
              fun a ha hb => hmem ((List.mem_singleton.mp hb) ▸ ha)⟩
          · intro x hx
            rcases List.mem_append.mp hx with h1 | h1
            · exact hsub x h1
            · rw [List.mem_singleton.mp h1]
              exact hkey
          · rw [List.length_append, List.length_singleton]
            omega

theorem checkCyclesFuel_cycle_report (m : Manifest) :
    ∀ (fuel : Nat) (path : Str) (chain ch : List Str),
    depChainOk m (chain ++ [path]) = true →
    checkCyclesFuel m fuel path chain = .error (.dependencyCycle ch) →
    ∃ c2, c2 ≠ [] ∧ isCycleIn m c2 = true ∧ ∀ p ∈ c2, p ∈ ch := by
  intro fuel
  induction fuel with
  | zero =>
    intro path chain ch _ hres
    rw [checkCyclesFuel_zero] at hres
    exact PyErr.noConfusion (Except.error.inj hres)
  | succ fuel2 ih =>
    intro path chain ch hwalk hres
    rcases hdg : dictGet path m.files with _ | binding
    · rw [checkCyclesFuel_succ_none m fuel2 path chain hdg] at hres
      exact Except.noConfusion hres
    · cases binding with
      | none =>
        rw [checkCyclesFuel_succ_unbound m fuel2 path chain hdg] at hres
        by_cases hmem : path ∈ chain
        · rw [if_pos hmem] at hres
          exact cycle_extract m path chain ch hwalk hmem
            (PyErr.dependencyCycle.inj (Except.error.inj hres))
        · rw [if_neg hmem] at hres
          exact PyErr.noConfusion (Except.error.inj hres)
      | some hh =>
        rw [checkCyclesFuel_succ_bound m fuel2 path chain hh hdg] at hres
        by_cases hmem : path ∈ chain
        · rw [if_pos hmem] at hres
          exact cycle_extract m path chain ch hwalk hmem
            (PyErr.dependencyCycle.inj (Except.error.inj hres))
        · rw [if_neg hmem] at hres
          obtain ⟨d, hd, hgd⟩ := exFold_error _ hh.depends _ hres
          have hedge : depEdge m path (normpath d) = true :=
            depEdge_intro m path (normpath d) hh hdg
              (List.mem_map_of_mem normpath hd)
          have hwalk2 :
              depChainOk m ((chain ++ [path]) ++ [normpath d]) = true := by
            have := depChainOk_snoc m (normpath d) chain path hwalk hedge
            rwa [show chain ++ [path, normpath d] =
              (chain ++ [path]) ++ [normpath d] from by simp] at this
          exact ih (normpath d) (chain ++ [path]) ch hwalk2 hgd

/-! Claim C3: dependency cycle detection. -/

/-- Claim C3, counterexample to the claim as stated: a manifest holding
a bound two-path dependency cycle but also an unbound entry ahead of it
makes restore_all raise AttributeError (check_cycles calls get_depends
on None for the unbound entry) rather than the claimed DependencyCycle. -/
theorem c3_cycle_detection_counterexample :
    isCycleIn c3Cex [lit "/a", lit "/b"] = true ∧
    Manifest.check_cycles c3Cex =
      .error (.attributeError (lit "NoneType has no get_depends")) ∧
    Manifest.restore_all c3Cex (fun _ => []) (fun _ _ => .ok []) =
      .error (.attributeError (lit "NoneType has no get_depends")) := by
  decide

/-- Claim C3, amended: on a manifest all of whose entries are bound,
any declared dependency cycle makes restore_all fail with a
DependencyCycle error - for every choice of extra data and handler
dispatch, so before any handler restore can run - and the reported
chain contains a complete cycle: every path of that cycle is named in
the chain.  (The claim as stated fails only when the manifest also
holds unbound entries, for which check_cycles raises AttributeError
instead.) -/
theorem c3_cycle_detection (m : Manifest) (c : List Str)
    (hcyc : isCycleIn m c = true)
    (hbound : ∀ e ∈ m.files, e.2 ≠ none) :
    ∃ ch, (∀ extraOf restoreFn,
        m.restore_all extraOf restoreFn = .error (.dependencyCycle ch)) ∧
      ∃ c2, c2 ≠ [] ∧ isCycleIn m c2 = true ∧ ∀ p ∈ c2, p ∈ ch := by
  have hv0 : ∃ v, v ∈ c := by
    cases c with
    | nil => exact absurd hcyc (by rw [isCycleIn]; exact Bool.false_ne_true)
    | cons v vs => exact ⟨v, List.mem_cons_self v vs⟩
  obtain ⟨v0, hv0c⟩ := hv0
  have hnotok : m.check_cycles ≠ .ok () := by
    intro hok
    have hall := (exFold_ok _ m.files).mp hok
    obtain ⟨w, hw, hedge⟩ := isCycleIn_succ m c hcyc v0 hv0c
    obtain ⟨hh, hdg, -⟩ := depEdge_elim m v0 w hedge
    have hmemf : (v0, some hh) ∈ m.files := dictGet_mem v0 m.files _ hdg
    have hcall := hall (v0, some hh) hmemf
    exact checkCyclesFuel_cycle_not_ok m c hcyc _ v0 [] hv0c hcall
  rcases hres : m.check_cycles with e | u
  · obtain ⟨ent, hent, hcall⟩ := exFold_error _ m.files e hres
    have hclass := checkCyclesFuel_classify m hbound (m.files.length + 1)
      ent.1 [] List.nodup_nil (fun x hx => absurd hx (List.not_mem_nil x))
      (by simp)
    rcases hclass with hok2 | ⟨ch, hch⟩
    · rw [hcall] at hok2
      exact Except.noConfusion hok2
    · rw [hcall] at hch
      have he : e = .dependencyCycle ch := Except.error.inj hch
      subst he
      obtain ⟨c2, hc2ne, hc2cyc, hc2mem⟩ :=
        checkCyclesFuel_cycle_report m (m.files.length + 1) ent.1 [] ch
          rfl hcall
      refine ⟨ch, ?_, c2, hc2ne, hc2cyc, hc2mem⟩
      intro extraOf restoreFn
      rw [Manifest.restore_all, hres]
  · cases u
    exact absurd hres hnotok

/-- Claim C3 witness: the amended theorem at the concrete fully bound
two-path cycle manifest. -/
theorem c3_cycle_detection_witness :
    isCycleIn c3Wit [lit "/a", lit "/b"] = true ∧
    (∀ e ∈ c3Wit.files, e.2 ≠ none) ∧
    ∃ ch, (∀ extraOf restoreFn,
        c3Wit.restore_all extraOf restoreFn = .error (.dependencyCycle ch)) ∧
      ∃ c2, c2 ≠ [] ∧ isCycleIn c3Wit c2 = true ∧ ∀ p ∈ c2, p ∈ ch :=
  ⟨by decide, by decide,
    c3_cycle_detection c3Wit [lit "/a", lit "/b"] (by decide) (by decide)⟩

/-! Claim C2: matcher determinism and parent-first order. -/

/-- Claim C2: (1) find_match binds the path to an instance of the first
handler class whose match returns non-None, constructed with exactly the
returned args; (2) when no class matches, the files dict is untouched;
(3) under every scheduler interleaving of the matching tasks admitted by
the ready-Event waits, a path whose task has run its matching body has
its in-domain parent fully done - a path is never bound before its
parent (when present) is bound. -/
theorem c2_matcher_determinism :
    (∀ (m : Manifest) (path : Str) (pre post : List HandlerKind)
       (k : HandlerKind) (akw : List Str × List (Str × Str)),
       (∀ k2 ∈ pre, k2.matchFn m path = none) →
       k.matchFn m path = some akw →
       findMatchLoop m path (pre ++ k :: post) =
         { m with files := dictSet m.files path (some (k.mkInst path akw.1 akw.2)) }) ∧
    (∀ (m : Manifest) (path : Str) (handlers : List HandlerKind),
       (∀ k ∈ handlers, k.matchFn m path = none) →
       findMatchLoop m path handlers = m) ∧
    (∀ (dom : List Str) (handlers : List HandlerKind) (init : Manifest)
       (s : MatchState), MatchReachable dom handlers init s →
       ∀ p ∈ dom, dirname p ∈ dom → s.phase p ≠ .start →
       s.phase (dirname p) = .done) := by
  refine ⟨?_, ?_, ?_⟩
  · intro m path pre
    induction pre with
    | nil =>
      intro post k akw _ hk
      rw [List.nil_append, findMatchLoop, hk]
    | cons k2 rest ih =>
      intro post k akw hpre hk
      rw [List.cons_append, findMatchLoop,
        hpre k2 (List.mem_cons_self k2 rest)]
      exact ih post k akw
        (fun k3 h3 => hpre k3 (List.mem_cons_of_mem k2 h3)) hk
  · intro m path handlers
    induction handlers with
    | nil =>
      intro _
      rfl
    | cons k rest ih =>
      intro hall
      rw [findMatchLoop, hall k (List.mem_cons_self k rest)]
      exact ih (fun k2 h2 => hall k2 (List.mem_cons_of_mem k h2))
  · intro dom handlers init s hreach
    induction hreach with
    | base =>
      intro p _ _ hne
      exact absurd rfl hne
    | step hr hs ih =>
      rename_i s1 s2
      cases hs with
      | runMatch p2 s0 hp2 hphase hparent =>
        intro p hp hpar hne
        have hne2 : (if p = p2 then TaskPhase.matched else s1.phase p) ≠
            .start := hne
        show (if dirname p = p2 then TaskPhase.matched
          else s1.phase (dirname p)) = .done
        by_cases hdp : dirname p = p2
        · exfalso
          by_cases hpp : p = p2
          · subst hpp
            have h1 := hparent hpar
            rw [hdp, hphase] at h1
            exact TaskPhase.noConfusion h1
          · rw [if_neg hpp] at hne2
            have hdone := ih p hp hpar hne2
            rw [hdp, hphase] at hdone
            exact TaskPhase.noConfusion hdone
        · rw [if_neg hdp]
          by_cases hpp : p = p2
          · subst hpp
            exact hparent hpar
          · rw [if_neg hpp] at hne2
            exact ih p hp hpar hne2
      | setReady p2 s0 hp2 hphase =>
        intro p hp hpar hne
        have hne2 : (if p = p2 then TaskPhase.done else s1.phase p) ≠
            .start := hne
        show (if dirname p = p2 then TaskPhase.done
          else s1.phase (dirname p)) = .done
        by_cases hdp : dirname p = p2
        · rw [if_pos hdp]
        · rw [if_neg hdp]
          by_cases hpp : p = p2
          · subst hpp
            refine ih p hp hpar ?_
            rw [hphase]
            exact fun hc => TaskPhase.noConfusion hc
          · rw [if_neg hpp] at hne2
            exact ih p hp hpar hne2

/-- Claim C2 witness: the three parts at concrete inputs - a two-class
priority list whose second class matches, a single non-matching class,
and the initial scheduler state over a parent-child domain. -/
theorem c2_matcher_determinism_witness :
    findMatchLoop c1Wit (lit "/a") [c2KNone, c2KAll] =
      { c1Wit with files := dictSet c1Wit.files (lit "/a") (some (c2KAll.mkInst (lit "/a") [] [])) } ∧
    findMatchLoop c1Wit (lit "/a") [c2KNone] = c1Wit ∧
    (∀ p ∈ [lit "/a", lit "/a/b"], dirname p ∈ [lit "/a", lit "/a/b"] →
      ({ m := c1Wit, phase := fun _ => .start } : MatchState).phase p ≠
        .start →
      ({ m := c1Wit, phase := fun _ => .start } : MatchState).phase
        (dirname p) = .done) :=
  ⟨c2_matcher_determinism.1 c1Wit (lit "/a") [c2KNone] [c2KAll] c2KAll
      ([], []) (by decide) rfl,
   c2_matcher_determinism.2.1 c1Wit (lit "/a") [c2KNone] (by decide),
   c2_matcher_determinism.2.2 [lit "/a", lit "/a/b"] [c2KNone, c2KAll]
     c1Wit { m := c1Wit, phase := fun _ => .start } MatchReachable.base⟩

/-! Supporting lemmas: archive member names and writes (claim C4). -/

theorem takeWhile_no_sep (sep : Char) :
    ∀ (l1 : List Char), sep ∉ l1 → ∀ (l2 : List Char),
    (l1 ++ sep :: l2).takeWhile (fun c => c ≠ sep) = l1 := by
  intro l1
  induction l1 with
  | nil =>
    intro _ l2
    simp
  | cons c t ih =>
    intro h l2
    have hc : ¬ c = sep := fun he => h (he ▸ List.mem_cons_self c t)
    have h2 : sep ∉ t := fun hm => h (List.mem_cons_of_mem c hm)
    rw [List.cons_append, List.takeWhile_cons, if_pos (by simp [hc]),
      ih h2 l2]

theorem rstripSlashes_append_slash (A : Str) (hA1 : A ≠ [])
    (hA2 : A.getLast? ≠ some '/') : rstripSlashes (A ++ ['/']) = A := by
  rw [rstripSlashes, List.reverse_append,
    show (['/'] : Str).reverse = ['/'] from rfl, List.singleton_append]
  rcases hAr : A.reverse with _ | ⟨a, t⟩
  · exact absurd (by rw [← List.reverse_reverse A, hAr]; rfl) hA1
  · have ha : ¬ a = '/' := by
      intro he
      apply hA2
      rw [← List.head?_reverse, hAr, he]
      rfl
    rw [List.dropWhile_cons, if_pos (by simp), List.dropWhile_cons,
      if_neg (by simp [ha]), ← hAr, List.reverse_reverse]

theorem replicate_getLast (n : Nat) (c : Char) :
    (List.replicate (n + 1) c).getLast? = some c := by
  rw [← List.head?_reverse, List.reverse_replicate, List.replicate_succ]
  rfl

theorem psplit_append (A k : Str) (hk : '/' ∉ k) (hA1 : A ≠ [])
    (hA2 : A.getLast? ≠ some '/') :
    psplit (A ++ '/' :: k) = (A, k) := by
  have h1 : (A ++ '/' :: k).reverse.takeWhile (fun c => c ≠ '/') =
      k.reverse := by
    rw [List.reverse_append, List.reverse_cons, List.append_assoc,
      List.singleton_append]
    exact takeWhile_no_sep '/' k.reverse
      (fun hm => hk (List.mem_reverse.mp hm)) _
  have hi : (A ++ '/' :: k).length -
      ((A ++ '/' :: k).reverse.takeWhile (fun c => c ≠ '/')).length =
      A.length + 1 := by
    rw [h1, List.length_reverse, List.length_append, List.length_cons]
    omega
  have hsplit2 : A ++ '/' :: k = (A ++ ['/']) ++ k := by
    rw [List.append_assoc, List.singleton_append]
  have htake : (A ++ '/' :: k).take (A.length + 1) = A ++ ['/'] := by
    rw [hsplit2]
    exact List.take_left' (by rw [List.length_append, List.length_singleton])
  have hdrop : (A ++ '/' :: k).drop (A.length + 1) = k := by
    rw [hsplit2]
    exact List.drop_left' (by rw [List.length_append, List.length_singleton])
  have hcond2 : A ++ ['/'] ≠ List.replicate (A ++ ['/']).length '/' := by
    intro heq
    apply hA2
    have hA : A = List.replicate A.length '/' := by
      have h3 := congrArg (List.take A.length) heq
      rw [List.take_left' rfl, List.length_append, List.length_singleton,
        List.take_replicate,
        show min A.length (A.length + 1) = A.length from by omega] at h3
      exact h3
    rcases hAn : A.length with _ | n
    · exact absurd (List.length_eq_zero.mp hAn) hA1
    · rw [hA, hAn]
      exact replicate_getLast n '/'
  simp only [psplit]
  rw [hi, htake, hdrop, if_pos ⟨by simp, hcond2⟩,
    rstripSlashes_append_slash A hA1 hA2]

theorem setAdd_mem_of_mem (l : List Str) (x y : Str) (h : x ∈ l) :
    x ∈ setAdd l y := by
  rw [setAdd]
  split
  · exact h
  · exact List.mem_append.mpr (Or.inl h)

theorem setAdd_mem_self (l : List Str) (y : Str) : y ∈ setAdd l y := by
  rw [setAdd]
  split
  · assumption
  · exact List.mem_append.mpr (Or.inr (List.mem_singleton.mpr rfl))

theorem awGetMember_append (l1 l2 : List TarMember) (n : Str) :
    awGetMember (l1 ++ l2) n =
      (awGetMember l2 n).or (awGetMember l1 n) := by
  rw [awGetMember, awGetMember, awGetMember, List.filter_append,
    List.getLast?_append]

theorem awGetMember_suffix_none (l1 l2 : List TarMember) (n : Str)
    (h : ∀ mem ∈ l2, mem.name ≠ n) :
    awGetMember (l1 ++ l2) n = awGetMember l1 n := by
  rw [awGetMember_append]
  have h2 : awGetMember l2 n = none := by
    rw [awGetMember, List.filter_eq_nil_iff.mpr
      (fun mem hm => by simp [h mem hm])]
    rfl
  rw [h2, Option.none_or]

theorem awGetMember_last (l : List TarMember) (mem : TarMember) :
    awGetMember (l ++ [mem]) mem.name = some mem := by
  rw [awGetMember_append]
  have h2 : awGetMember [mem] mem.name = some mem := by
    rw [awGetMember]
    simp
  rw [h2]
  rfl

theorem awMkdirFuel_spec :
    ∀ (fuel : Nat) (ar : ArchiveW) (path : Str),
    ∃ s, (awMkdirFuel fuel ar path).members = ar.members ++ s ∧
      (∀ x ∈ ar.names, x ∈ (awMkdirFuel fuel ar path).names) ∧
      (∀ mem ∈ s, mem.isdir = true ∧ mem.name ∉ ar.names) := by
  intro fuel
  induction fuel with
  | zero =>
    intro ar path
    exact ⟨[], by rw [awMkdirFuel]; rw [List.append_nil],
      fun x hx => hx, fun mem hm => absurd hm (List.not_mem_nil mem)⟩
  | succ fuel2 ih =>
    intro ar path
    by_cases hstop : path = [] ∨ path ∈ ar.names
    · rw [awMkdirFuel, if_pos hstop]
      exact ⟨[], by rw [List.append_nil], fun x hx => hx,
        fun mem hm => absurd hm (List.not_mem_nil mem)⟩
    · rw [awMkdirFuel, if_neg hstop]
      by_cases hd : path ≠ dirname path
      · rw [if_pos hd]
        obtain ⟨s2, hm2, hn2, hs2⟩ := ih ar (dirname path)
        refine ⟨s2 ++ [⟨path, true, []⟩], ?_, ?_, ?_⟩
        · show (awMkdirFuel fuel2 ar (dirname path)).members ++
            [⟨path, true, []⟩] = ar.members ++ (s2 ++ [⟨path, true, []⟩])
          rw [hm2, List.append_assoc]
        · intro x hx
          show x ∈ setAdd (awMkdirFuel fuel2 ar (dirname path)).names path
          exact setAdd_mem_of_mem _ x path (hn2 x hx)
        · intro mem hm
          rcases List.mem_append.mp hm with h1 | h1
          · exact hs2 mem h1
          · rw [List.mem_singleton.mp h1]
            exact ⟨rfl, fun hc => hstop (Or.inr hc)⟩
      · rw [if_neg hd]
        refine ⟨[⟨path, true, []⟩], rfl, ?_, ?_⟩
        · intro x hx
          show x ∈ setAdd ar.names path
          exact setAdd_mem_of_mem _ x path hx
        · intro mem hm
          rw [List.mem_singleton.mp hm]
          exact ⟨rfl, fun hc => hstop (Or.inr hc)⟩

theorem awWrite_spec (ar : ArchiveW) (path v : Str) :
    ∃ s, (awWrite ar path v).members =
        ar.members ++ (s ++ [⟨path, false, v⟩]) ∧
      (∀ x ∈ ar.names, x ∈ (awWrite ar path v).names) ∧
      path ∈ (awWrite ar path v).names ∧
      (∀ mem ∈ s, mem.isdir = true ∧ mem.name ∉ ar.names) := by
  obtain ⟨s, hm, hn, hs⟩ := awMkdirFuel_spec ((dirname path).length + 1) ar
    (dirname path)
  refine ⟨s, ?_, ?_, ?_, hs⟩
  · show (awMkdir ar (dirname path)).members ++ [⟨path, false, v⟩] = _
    rw [awMkdir, hm, List.append_assoc]
  · intro x hx
    show x ∈ setAdd (awMkdir ar (dirname path)).names path
    exact setAdd_mem_of_mem _ x path (hn x hx)
  · show path ∈ setAdd (awMkdir ar (dirname path)).names path
    exact setAdd_mem_self _ path

theorem archive_path_ne_nil (p : Str) : archive_path p ≠ [] := by
  rw [archive_path]
  simp [lit]

theorem archive_path_getLast (p : Str) (h : archKeyOk p) :
    (archive_path p).getLast? ≠ some '/' := by
  rw [archive_path, List.getLast?_append]
  rcases hgl : (p.dropWhile (fun c => c = '/')).getLast? with _ | y
  · exact absurd (List.getLast?_eq_none_iff.mp hgl) h.1
  · rw [show (some y).or (List.getLast? (lit "data/")) = some y from rfl,
      ← hgl]
    exact h.2

theorem pjoin_data (p k : Str) (hp : archKeyOk p) (hk : '/' ∉ k) :
    pjoin (archive_path p) k = archive_path p ++ '/' :: k := by
  have hiA : isAbs k = false := by
    cases hke : k with
    | nil => rfl
    | cons c t =>
      have hc : ¬ c = '/' := fun he =>
        hk (hke ▸ he ▸ List.mem_cons_self c t)
      simp [isAbs, hc]
  rw [pjoin, if_neg (by rw [hiA]; exact fun h => Bool.noConfusion h),
    if_neg (by push_neg; exact ⟨archive_path_ne_nil p,
      archive_path_getLast p hp⟩)]

theorem dirname_data (p k : Str) (hp : archKeyOk p) (hk : '/' ∉ k) :
    dirname (pjoin (archive_path p) k) = archive_path p := by
  rw [pjoin_data p k hp hk, dirname,
    psplit_append _ _ hk (archive_path_ne_nil p) (archive_path_getLast p hp)]

theorem basename_data (p k : Str) (hp : archKeyOk p) (hk : '/' ∉ k) :
    basename (pjoin (archive_path p) k) = k := by
  rw [pjoin_data p k hp hk, basename,
    psplit_append _ _ hk (archive_path_ne_nil p) (archive_path_getLast p hp)]

theorem data_name_ne_manifest (p k : Str) :
    archive_path p ++ '/' :: k ≠ lit "manifest" := by
  intro heq
  have h2 : (archive_path p ++ '/' :: k).head? = some 'd' := by
    rw [archive_path]
    rfl
  rw [heq] at h2
  exact absurd h2 (by decide)

theorem pjoin_data_ne_manifest (p k : Str) (hp : archKeyOk p)
    (hk : '/' ∉ k) : pjoin (archive_path p) k ≠ lit "manifest" := by
  rw [pjoin_data p k hp hk]
  exact data_name_ne_manifest p k

theorem add_extra_data_spec (p : Str) :
    ∀ (data : List (Str × Str)) (ar : ArchiveW),
    ∃ s, (Archive.add_extra_data ar p data).members = ar.members ++ s ∧
      (∀ x ∈ ar.names, x ∈ (Archive.add_extra_data ar p data).names) ∧
      (∀ kv ∈ data,
        pjoin (archive_path p) kv.1 ∈ (Archive.add_extra_data ar p data).names) ∧
      (∀ mem ∈ s, (mem.isdir = true ∧ mem.name ∉ ar.names) ∨
        (mem.isdir = false ∧ ∃ kv ∈ data,
          mem.name = pjoin (archive_path p) kv.1 ∧ mem.content = kv.2)) := by
  intro data
  induction data with
  | nil =>
    intro ar
    refine ⟨[], by rw [List.append_nil]; rfl, fun x hx => hx, ?_, ?_⟩
    · intro kv hkv
      cases hkv
    · intro mem hm
      cases hm
  | cons kv rest ih =>
    intro ar
    have hunf : Archive.add_extra_data ar p (kv :: rest) =
        Archive.add_extra_data
          (awWrite ar (pjoin (archive_path p) kv.1) kv.2) p rest := by
      rw [Archive.add_extra_data, List.foldl_cons, Archive.add_extra_data]
    obtain ⟨s1, hm1, hn1, hpn1, hs1⟩ :=
      awWrite_spec ar (pjoin (archive_path p) kv.1) kv.2
    obtain ⟨s2, hm2, hn2, hpn2, hs2⟩ :=
      ih (awWrite ar (pjoin (archive_path p) kv.1) kv.2)
    rw [hunf]
    refine ⟨(s1 ++ [⟨pjoin (archive_path p) kv.1, false, kv.2⟩]) ++ s2,
      ?_, ?_, ?_, ?_⟩
    · rw [hm2, hm1, List.append_assoc]
    · intro x hx
      exact hn2 x (hn1 x hx)
    · intro kv2 hkv2
      rcases List.mem_cons.mp hkv2 with rfl | h2
      · exact hn2 _ hpn1
      · exact hpn2 kv2 h2
    · intro mem hm
      rcases List.mem_append.mp hm with h1 | h1
      · rcases List.mem_append.mp h1 with h3 | h3
        · exact Or.inl (hs1 mem h3)
        · rw [List.mem_singleton.mp h3]
          exact Or.inr ⟨rfl, kv, List.mem_cons_self kv rest, rfl, rfl⟩
      · rcases hs2 mem h1 with ⟨hdir, hnm⟩ | ⟨hfile, kv2, hkv2, hname, hcont⟩
        · exact Or.inl ⟨hdir, fun hc => hnm (hn1 _ hc)⟩
        · exact Or.inr ⟨hfile, kv2, List.mem_cons_of_mem kv hkv2, hname,
            hcont⟩

theorem dictGet_ne_nil (l : List (Str × α)) (k : Str) (v : α)
    (h : dictGet k l = some v) : l ≠ [] := by
  intro he
  rw [he] at h
  exact Option.noConfusion h

theorem pjoin_data_inj (p : Str) (hp : archKeyOk p) (k1 k2 : Str)
    (hk1 : '/' ∉ k1) (hk2 : '/' ∉ k2)
    (h : pjoin (archive_path p) k1 = pjoin (archive_path p) k2) :
    k1 = k2 := by
  rw [pjoin_data p k1 hp hk1, pjoin_data p k2 hp hk2] at h
  have h2 := List.append_cancel_left h
  exact List.cons.inj h2 |>.2

theorem add_extra_data_last (p : Str) (hp : archKeyOk p) :
    ∀ (data : List (Str × Str)) (ar : ArchiveW) (k v : Str),
    (∀ kv2 ∈ data, '/' ∉ kv2.1) →
    (data.map Prod.fst).Nodup →
    dictGet k data = some v →
    awGetMember (Archive.add_extra_data ar p data).members
        (pjoin (archive_path p) k) =
      some ⟨pjoin (archive_path p) k, false, v⟩ := by
  intro data
  induction data with
  | nil =>
    intro ar k v _ _ hdg
    exact absurd hdg (by rw [dictGet]; exact fun hc => Option.noConfusion hc)
  | cons kv rest ih =>
    intro ar k v hsf hnd hdg
    have hksf : '/' ∉ k := by
      rw [dictGet] at hdg
      split at hdg
      · rename_i he
        rw [← he]
        exact hsf kv (List.mem_cons_self kv rest)
      · exact hsf (k, v) (List.mem_cons_of_mem kv (dictGet_mem k rest v hdg))
    have hunf : Archive.add_extra_data ar p (kv :: rest) =
        Archive.add_extra_data
          (awWrite ar (pjoin (archive_path p) kv.1) kv.2) p rest := by
      rw [Archive.add_extra_data, List.foldl_cons, Archive.add_extra_data]
    rw [hunf, dictGet] at *
    rw [List.map_cons, List.nodup_cons] at hnd
    split at hdg
    · rename_i he
      rw [Option.some.injEq] at hdg
      subst hdg
      obtain ⟨s1, hm1, hn1, hpn1, hs1⟩ :=
        awWrite_spec ar (pjoin (archive_path p) kv.1) kv.2
      obtain ⟨s2, hm2, hn2, hpn2, hs2⟩ := add_extra_data_spec p rest
        (awWrite ar (pjoin (archive_path p) kv.1) kv.2)
      rw [hm2, awGetMember_suffix_none]
      · rw [hm1, ← List.append_assoc, he]
        exact awGetMember_last _ ⟨pjoin (archive_path p) k, false, kv.2⟩
      · intro mem hmem
        rcases hs2 mem hmem with ⟨_, hnm⟩ | ⟨_, kv2, hkv2, hname, _⟩
        · intro hc
          apply hnm
          rw [hc, ← he]
          exact hpn1
        · rw [hname]
          intro hc
          have hkk := pjoin_data_inj p hp kv2.1 k
            (hsf kv2 (List.mem_cons_of_mem kv hkv2)) hksf hc
          apply hnd.1
          rw [he, ← hkk]
          exact List.mem_map_of_mem Prod.fst hkv2
    · exact ih (awWrite ar (pjoin (archive_path p) kv.1) kv.2) k v
        (fun kv2 h2 => hsf kv2 (List.mem_cons_of_mem kv h2)) hnd.2 hdg

theorem addManifestLoop_spec (extraOf : Str → List (Str × Str)) :
    ∀ (entries : List (Str × Option HandlerInst)) (ar : ArchiveW),
    ∃ s, (addManifestLoop extraOf ar entries).1.members = ar.members ++ s ∧
      (∀ x ∈ ar.names, x ∈ (addManifestLoop extraOf ar entries).1.names) ∧
      (∀ mem ∈ s, (mem.isdir = true ∧ mem.name ∉ ar.names) ∨
        (mem.isdir = false ∧ ∃ e ∈ entries, ∃ kv ∈ extraOf e.1,
          mem.name = pjoin (archive_path e.1) kv.1 ∧
          mem.content = kv.2)) := by
  intro entries
  induction entries with
  | nil =>
    intro ar
    exact ⟨[], by rw [List.append_nil]; rfl, fun x hx => hx,
      fun mem hm => absurd hm (List.not_mem_nil mem)⟩
  | cons e1 rest ih =>
    intro ar
    rcases e1 with ⟨p, oh⟩
    cases oh with
    | none =>
      rw [addManifestLoop]
      exact ⟨[], by rw [List.append_nil], fun x hx => hx,
        fun mem hm => absurd hm (List.not_mem_nil mem)⟩
    | some hh =>
      rw [addManifestLoop]
      by_cases hne : extraOf p ≠ []
      · rw [if_pos hne]
        obtain ⟨s1, hm1, hn1, hpn1, hs1⟩ := add_extra_data_spec p (extraOf p) ar
        obtain ⟨s2, hm2, hn2, hs2⟩ := ih (Archive.add_extra_data ar p (extraOf p))
        refine ⟨s1 ++ s2, ?_, ?_, ?_⟩
        · rw [hm2, hm1, List.append_assoc]
        · intro x hx
          exact hn2 x (hn1 x hx)
        · intro mem hm
          rcases List.mem_append.mp hm with h1 | h1
          · rcases hs1 mem h1 with ⟨hdir, hnm⟩ | ⟨hfile, kv, hkv, hname, hcont⟩
            · exact Or.inl ⟨hdir, hnm⟩
            · exact Or.inr ⟨hfile, (p, some hh),
                List.mem_cons_self _ _, kv, hkv, hname, hcont⟩
          · rcases hs2 mem h1 with ⟨hdir, hnm⟩ | ⟨hfile, e2, he2, kv, hkv, hname, hcont⟩
            · exact Or.inl ⟨hdir, fun hc => hnm (hn1 _ hc)⟩
            · exact Or.inr ⟨hfile, e2, List.mem_cons_of_mem _ he2, kv, hkv,
                hname, hcont⟩
      · rw [if_neg hne]
        obtain ⟨s2, hm2, hn2, hs2⟩ := ih ar
        refine ⟨s2, hm2, hn2, ?_⟩
        intro mem hm
        rcases hs2 mem hm with ⟨hdir, hnm⟩ | ⟨hfile, e2, he2, kv, hkv, hname, hcont⟩
        · exact Or.inl ⟨hdir, hnm⟩
        · exact Or.inr ⟨hfile, e2, List.mem_cons_of_mem _ he2, kv, hkv,
            hname, hcont⟩

theorem addManifestLoop_last (extraOf : Str → List (Str × Str)) :
    ∀ (entries : List (Str × Option HandlerInst)) (ar : ArchiveW)
      (e : Str × Option HandlerInst) (k v : Str),
    e ∈ entries →
    (∀ e2 ∈ entries, e2.2 ≠ none) →
    (∀ e2 ∈ entries, archKeyOk e2.1) →
    (∀ e2 ∈ entries, (∀ kv ∈ extraOf e2.1, '/' ∉ kv.1) ∧
      ((extraOf e2.1).map Prod.fst).Nodup) →
    (entries.map (fun e2 => archive_path e2.1)).Nodup →
    dictGet k (extraOf e.1) = some v →
    awGetMember (addManifestLoop extraOf ar entries).1.members
        (pjoin (archive_path e.1) k) =
      some ⟨pjoin (archive_path e.1) k, false, v⟩ := by
  intro entries
  induction entries with
  | nil =>
    intro ar e k v hmem
    exact absurd hmem (List.not_mem_nil e)
  | cons e1 rest ih =>
    intro ar e k v hmem hbound hak hwf hstrip hdg
    rcases e1 with ⟨p, oh⟩
    cases oh with
    | none =>
      exact absurd rfl (hbound (p, none) (List.mem_cons_self _ _))
    | some hh =>
      rw [addManifestLoop]
      rw [List.map_cons, List.nodup_cons] at hstrip
      rcases List.mem_cons.mp hmem with rfl | hrest
      · have hkmem : (k, v) ∈ extraOf p :=
          dictGet_mem k (extraOf p) v hdg
        have hksf : '/' ∉ k :=
          (hwf (p, some hh) (List.mem_cons_self _ _)).1 (k, v) hkmem
        have hne : extraOf p ≠ [] := dictGet_ne_nil _ k v hdg
        rw [if_pos hne]
        obtain ⟨s2, hm2, hn2, hs2⟩ := addManifestLoop_spec extraOf rest
          (Archive.add_extra_data ar p (extraOf p))
        rw [hm2, awGetMember_suffix_none]
        · exact add_extra_data_last p
            (hak (p, some hh) (List.mem_cons_self _ _)) (extraOf p) ar k v
            (hwf (p, some hh) (List.mem_cons_self _ _)).1
            (hwf (p, some hh) (List.mem_cons_self _ _)).2 hdg
        · intro mem hmm
          rcases hs2 mem hmm with ⟨_, hnm⟩ | ⟨_, e2, he2, kv, hkv, hname, _⟩
          · intro hc
            apply hnm
            rw [hc]
            obtain ⟨s1, hm1, hn1, hpn1, hs1⟩ :=
              add_extra_data_spec p (extraOf p) ar
            exact hpn1 (k, v) hkmem
          · rw [hname]
            intro hc
            have hd1 : dirname (pjoin (archive_path e2.1) kv.1) =
                archive_path e2.1 :=
              dirname_data e2.1 kv.1 (hak e2 (List.mem_cons_of_mem _ he2))
                ((hwf e2 (List.mem_cons_of_mem _ he2)).1 kv hkv)
            have hd2 : dirname (pjoin (archive_path p) k) =
                archive_path p :=
              dirname_data p k (hak (p, some hh) (List.mem_cons_self _ _))
                hksf
            apply hstrip.1
            have hc2 : pjoin (archive_path e2.1) kv.1 =
                pjoin (archive_path p) k := hc
            rw [show archive_path (p, some hh).1 = archive_path e2.1 from by
              show archive_path p = archive_path e2.1
              rw [← hd2, ← hc2, hd1]]
            exact List.mem_map_of_mem _ he2
      · -- e in the tail
        have hres := ih (if extraOf p ≠ [] then
            Archive.add_extra_data ar p (extraOf p) else ar) e k v hrest
          (fun e2 h2 => hbound e2 (List.mem_cons_of_mem _ h2))
          (fun e2 h2 => hak e2 (List.mem_cons_of_mem _ h2))
          (fun e2 h2 => hwf e2 (List.mem_cons_of_mem _ h2)) hstrip.2 hdg
        exact hres

theorem awGetMember_mem (l : List TarMember) (n : Str) (mem : TarMember)
    (h : awGetMember l n = some mem) : mem ∈ l ∧ mem.name = n := by
  rw [awGetMember] at h
  have h2 := List.mem_of_mem_getLast? h
  exact ⟨(List.mem_filter.mp h2).1, of_decide_eq_true (List.mem_filter.mp h2).2⟩

theorem dictGet_of_mem_nodup (l : List (Str × α))
    (hnd : (l.map Prod.fst).Nodup) (k : Str) (v : α) (hm : (k, v) ∈ l) :
    dictGet k l = some v := by
  induction l with
  | nil => cases hm
  | cons e rest ih =>
    rw [List.map_cons, List.nodup_cons] at hnd
    rw [dictGet]
    rcases List.mem_cons.mp hm with rfl | h2
    · rw [if_pos rfl]
    · by_cases he : e.1 = k
      · exfalso
        apply hnd.1
        rw [he]
        exact List.mem_map_of_mem Prod.fst h2
      · rw [if_neg he]
        exact ih hnd.2 h2

theorem ged_as_fold (members : List TarMember) (p : Str) :
    Archive.get_extra_data members p =
      (awGetNames members).foldl (fun acc n =>
        match gedPick members (archive_path p) n with
        | some e => dictSet acc e.1 e.2
        | none => acc) [] := by
  rw [Archive.get_extra_data]
  refine List.foldl_ext _ _ [] ?_
  intro acc n _
  rw [gedPick]
  by_cases hd : dirname n = archive_path p
  · rw [if_pos hd, if_pos hd]
    rcases hg : awGetMember members n with _ | mem
    · rfl
    · by_cases hdir : mem.isdir
      · simp [hdir]
      · simp [hdir]
  · rw [if_neg hd, if_neg hd]

theorem foldl_ged (members : List TarMember) (A : Str) :
    ∀ (ns : List Str) (acc : List (Str × Str)),
    (∀ n ∈ ns, ∀ e, gedPick members A n = some e → dictGet e.1 acc = none) →
    ns.Pairwise (fun n1 n2 => ∀ e1 e2, gedPick members A n1 = some e1 →
      gedPick members A n2 = some e2 → e1.1 ≠ e2.1) →
    ns.foldl (fun acc n => match gedPick members A n with
      | some e => dictSet acc e.1 e.2
      | none => acc) acc = acc ++ ns.filterMap (gedPick members A) := by
  intro ns
  induction ns with
  | nil =>
    intro acc _ _
    rw [List.foldl_nil, List.filterMap_nil, List.append_nil]
  | cons n rest ih =>
    intro acc hfresh hpw
    rw [List.pairwise_cons] at hpw
    rw [List.foldl_cons, List.filterMap_cons]
    rcases hg : gedPick members A n with _ | e
    · exact ih acc
        (fun n2 h2 e he => hfresh n2 (List.mem_cons_of_mem n h2) e he) hpw.2
    · have hfr := hfresh n (List.mem_cons_self n rest) e hg
      have hde : dictSet acc e.1 e.2 = acc ++ [e] := by
        rw [dictSet_eq_append acc e.1 e.2 hfr, Prod.mk.eta]
      have hf2 : ∀ n2 ∈ rest, ∀ e2, gedPick members A n2 = some e2 →
          dictGet e2.1 (acc ++ [e]) = none := by
        intro n2 h2 e2 he2
        rw [dictGet_eq_none_iff, List.map_append, List.mem_append]
        push_neg
        constructor
        · rw [← dictGet_eq_none_iff]
          exact hfresh n2 (List.mem_cons_of_mem n h2) e2 he2
        · rw [show ([e] : List (Str × Str)).map Prod.fst = [e.1] from rfl]
          rw [List.mem_singleton]
          exact fun hc => (hpw.1 n2 h2 e e2 hg he2) hc.symm
      have h2 := ih (acc ++ [e]) hf2 hpw.2
      show List.foldl _ (dictSet acc e.1 e.2) rest =
        acc ++ e :: List.filterMap (gedPick members A) rest
      rw [hde, h2, List.append_assoc, List.singleton_append]

theorem filterMap_keys_nodup (pick : Str → Option (Str × Str)) :
    ∀ (ns : List Str),
    ns.Pairwise (fun n1 n2 => ∀ e1 e2, pick n1 = some e1 →
      pick n2 = some e2 → e1.1 ≠ e2.1) →
    ((ns.filterMap pick).map Prod.fst).Nodup := by
  intro ns
  induction ns with
  | nil =>
    intro _
    exact List.nodup_nil
  | cons n rest ih =>
    intro hpw
    rw [List.pairwise_cons] at hpw
    rw [List.filterMap_cons]
    rcases hg : pick n with _ | e
    · exact ih hpw.2
    · rw [List.map_cons, List.nodup_cons]
      refine ⟨?_, ih hpw.2⟩
      intro hc
      rw [List.mem_map] at hc
      obtain ⟨e2, he2, hke⟩ := hc
      obtain ⟨n2, hn2, hp2⟩ := List.mem_filterMap.mp he2
      exact hpw.1 n2 hn2 e e2 hg hp2 hke.symm

theorem awWrite_manifest (d : Str) :
    awWrite emptyArchive (lit "manifest") d =
      { members := [⟨lit "manifest", false, d⟩],
        names := [lit "manifest"] } := rfl

theorem add_manifest_members (extraOf : Str → List (Str × Str))
    (m : Manifest)
    (hak : ∀ e ∈ m.files, archKeyOk e.1)
    (hx : ∀ e ∈ m.files, ∀ kv ∈ extraOf e.1, '/' ∉ kv.1) :
    ∃ s, (Archive.add_manifest extraOf emptyArchive m).1.members =
        ⟨lit "manifest", false, m.dump⟩ :: s ∧
      (∀ mem ∈ s, mem.name ≠ lit "manifest") ∧
      (∀ mem ∈ s, mem.isdir = false →
        ∃ e ∈ m.files, ∃ kv ∈ extraOf e.1,
          mem.name = pjoin (archive_path e.1) kv.1 ∧
          mem.content = kv.2) := by
  obtain ⟨s, hm, hn, hs⟩ := addManifestLoop_spec extraOf m.files
    (awWrite emptyArchive (lit "manifest") m.dump)
  refine ⟨s, ?_, ?_, ?_⟩
  · rw [Archive.add_manifest, hm, awWrite_manifest]
    rfl
  · intro mem hmem
    rcases hs mem hmem with ⟨_, hnm⟩ | ⟨_, e, he, kv, hkv, hname, _⟩
    · rw [awWrite_manifest] at hnm
      intro hc
      exact hnm (by rw [hc]; exact List.mem_singleton.mpr rfl)
    · rw [hname]
      exact pjoin_data_ne_manifest e.1 kv.1 (hak e he) (hx e he kv hkv)
  · intro mem hmem hfile
    rcases hs mem hmem with ⟨hdir, _⟩ | ⟨_, e, he, kv, hkv, hname, hcont⟩
    · rw [hdir] at hfile
      exact Bool.noConfusion hfile
    · exact ⟨e, he, kv, hkv, hname, hcont⟩

theorem add_manifest_read (extraOf : Str → List (Str × Str)) (m : Manifest)
    (hak : ∀ e ∈ m.files, archKeyOk e.1)
    (hx : ∀ e ∈ m.files, ∀ kv ∈ extraOf e.1, '/' ∉ kv.1) :
    awRead (Archive.add_manifest extraOf emptyArchive m).1.members
      (lit "manifest") = some m.dump := by
  obtain ⟨s, hm, hn, -⟩ := add_manifest_members extraOf m hak hx
  rw [awRead, hm,
    show (⟨lit "manifest", false, m.dump⟩ : TarMember) :: s =
      [⟨lit "manifest", false, m.dump⟩] ++ s from rfl,
    awGetMember_suffix_none _ _ _ hn,
    show awGetMember [⟨lit "manifest", false, m.dump⟩] (lit "manifest") =
      some ⟨lit "manifest", false, m.dump⟩ from by rw [awGetMember]; simp]
  rfl

theorem ged_pick_sound (extraOf : Str → List (Str × Str)) (m : Manifest)
    (hak : ∀ e ∈ m.files, archKeyOk e.1)
    (hx : ∀ e ∈ m.files, (∀ kv ∈ extraOf e.1, '/' ∉ kv.1) ∧
      ((extraOf e.1).map Prod.fst).Nodup)
    (hstrip : (m.files.map (fun e2 => archive_path e2.1)).Nodup)
    (e : Str × Option HandlerInst) (he : e ∈ m.files) (n : Str)
    (e' : Str × Str)
    (hp : gedPick (Archive.add_manifest extraOf emptyArchive m).1.members
      (archive_path e.1) n = some e') :
    dictGet e'.1 (extraOf e.1) = some e'.2 ∧
    n = pjoin (archive_path e.1) e'.1 := by
  rw [gedPick] at hp
  split at hp
  case isFalse => exact Option.noConfusion hp
  case isTrue hd =>
    split at hp
    case h_2 => exact Option.noConfusion hp
    case h_1 mem hg =>
      split at hp
      · exact Option.noConfusion hp
      · rename_i hdir
        rw [Option.some.injEq] at hp
        subst hp
        obtain ⟨hmm, hnm⟩ := awGetMember_mem _ n mem hg
        obtain ⟨s, hms, hne, hfiles⟩ := add_manifest_members extraOf m hak
          (fun e2 h2 kv hkv => (hx e2 h2).1 kv hkv)
        rw [hms] at hmm
        rcases List.mem_cons.mp hmm with rfl | hins
        · exfalso
          apply archive_path_ne_nil e.1
          rw [← hd, ← hnm]
          show dirname (lit "manifest") = []
          decide
        · have hfile : mem.isdir = false := Bool.eq_false_iff.mpr hdir
          obtain ⟨e2, he2, kv, hkv, hname, hcont⟩ := hfiles mem hins hfile
          have hd2 : dirname n = archive_path e2.1 := by
            rw [← hnm, hname]
            exact dirname_data e2.1 kv.1 (hak e2 he2) ((hx e2 he2).1 kv hkv)
          have hee : e2 = e :=
            List.inj_on_of_nodup_map hstrip he2 he (by rw [← hd2, hd])
          subst hee
          have hb : basename n = kv.1 := by
            rw [← hnm, hname]
            exact basename_data e2.1 kv.1 (hak e2 he2) ((hx e2 he2).1 kv hkv)
          constructor
          · show dictGet (basename n) (extraOf e2.1) = some mem.content
            rw [hb, hcont]
            exact dictGet_of_mem_nodup _ (hx e2 he2).2 kv.1 kv.2
              (by rw [Prod.mk.eta]; exact hkv)
          · show n = pjoin (archive_path e2.1) (basename n)
            rw [hb, ← hnm]
            exact hname

theorem ged_pick_complete (extraOf : Str → List (Str × Str)) (m : Manifest)
    (hbound : ∀ e ∈ m.files, e.2 ≠ none)
    (hak : ∀ e ∈ m.files, archKeyOk e.1)
    (hx : ∀ e ∈ m.files, (∀ kv ∈ extraOf e.1, '/' ∉ kv.1) ∧
      ((extraOf e.1).map Prod.fst).Nodup)
    (hstrip : (m.files.map (fun e2 => archive_path e2.1)).Nodup)
    (e : Str × Option HandlerInst) (he : e ∈ m.files) (k v : Str)
    (hdg : dictGet k (extraOf e.1) = some v) :
    pjoin (archive_path e.1) k ∈
      awGetNames (Archive.add_manifest extraOf emptyArchive m).1.members ∧
    gedPick (Archive.add_manifest extraOf emptyArchive m).1.members
        (archive_path e.1) (pjoin (archive_path e.1) k) =
      some (k, v) := by
  have hksf : '/' ∉ k :=
    (hx e he).1 (k, v) (dictGet_mem _ _ _ hdg)
  have hlast : awGetMember
      (Archive.add_manifest extraOf emptyArchive m).1.members
      (pjoin (archive_path e.1) k) =
      some ⟨pjoin (archive_path e.1) k, false, v⟩ := by
    rw [Archive.add_manifest]
    exact addManifestLoop_last extraOf m.files
      (awWrite emptyArchive (lit "manifest") m.dump) e k v he hbound hak
      hx hstrip hdg
  constructor
  · rw [awGetNames, List.mem_dedup]
    exact List.mem_map.mpr ⟨_, (awGetMember_mem _ _ _ hlast).1, rfl⟩
  · rw [gedPick, if_pos (dirname_data e.1 k (hak e he) hksf), hlast]
    simp [basename_data e.1 k (hak e he) hksf]

/-! Claim C4: archive round trip. -/

/-- Claim C4, counterexample to the claim as stated: for the bound
manifest whose only path is the root directory, the extra data is
written under data/mode (archive_path of the root is the bare data/
prefix), but on read get_extra_data scans for names whose dirname is
data/ while the member's dirname is data - so the extra-data map comes
back empty rather than equal to what the handler produced.  (The
manifest-equality half of the claim also fails for any bound handler
argument containing a comma, as the C1 counterexample shows.) -/
theorem c4_archive_roundtrip_counterexample :
    (Archive.add_manifest c4ExtraOf emptyArchive c4Cex).2 = none ∧
    Archive.get_extra_data
      (Archive.add_manifest c4ExtraOf emptyArchive c4Cex).1.members
      (lit "/") = [] ∧
    c4ExtraOf (lit "/") = [(lit "mode", lit "493")] ∧
    awGetNames (Archive.add_manifest c4ExtraOf emptyArchive c4Cex).1.members =
      [lit "manifest", lit "data", lit "data/mode"] := by
  decide

/-- Claim C4, amended: for a manifest in dump-safe form (manifestWf, as
in the amended C1) all of whose entries are bound, whose paths are
archive-addressable (neither the root nor slash-terminated, with
pairwise distinct stripped forms) and whose extra-data keys are nonempty
slash-free names with distinct keys per path, add_manifest succeeds, and
a read of the resulting archive returns the manifest's dump parsed back
(no error, same path set, same handler names and arguments) and, for
every path, exactly the key-to-value map the handler produced at write
time. -/
theorem c4_archive_roundtrip (cwd : Str)
    (extraOf : Str → List (Str × Str)) (m : Manifest)
    (hwf : manifestWf cwd m)
    (hbound : ∀ e ∈ m.files, e.2 ≠ none)
    (hak : ∀ e ∈ m.files, archKeyOk e.1)
    (hstrip : (m.files.map (fun e2 => archive_path e2.1)).Nodup)
    (hx : ∀ e ∈ m.files, (∀ kv ∈ extraOf e.1, extraKeyWf kv.1) ∧
      ((extraOf e.1).map Prod.fst).Nodup) :
    (Archive.add_manifest extraOf emptyArchive m).2 = none ∧
    (Archive.get_manifest cwd
      (Archive.add_manifest extraOf emptyArchive m).1.members).2 = none ∧
    (∀ q, (Archive.get_manifest cwd
        (Archive.add_manifest extraOf emptyArchive m).1.members).1.lookupNAK
          q = m.lookupNAK q) ∧
    ∀ e ∈ m.files, ∀ k,
      dictGet k (Archive.get_extra_data
        (Archive.add_manifest extraOf emptyArchive m).1.members e.1) =
      dictGet k (extraOf e.1) := by
  have hx2 : ∀ e ∈ m.files, (∀ kv ∈ extraOf e.1, '/' ∉ kv.1) ∧
      ((extraOf e.1).map Prod.fst).Nodup :=
    fun e he => ⟨fun kv hkv => ((hx e he).1 kv hkv).2, (hx e he).2⟩
  have hx3 : ∀ e ∈ m.files, ∀ kv ∈ extraOf e.1, '/' ∉ kv.1 :=
    fun e he kv hkv => (hx2 e he).1 kv hkv
  refine ⟨?_, ?_, ?_, ?_⟩
  · exact (addManifestLoop_ok extraOf m.files _).mpr hbound
  · rw [Archive.get_manifest, add_manifest_read extraOf m hak hx3]
    exact (load_dump_roundtrip cwd m hwf).1
  · intro q
    rw [Archive.get_manifest, add_manifest_read extraOf m hak hx3]
    exact (load_dump_roundtrip cwd m hwf).2 q
  · intro e he k
    have hpw : (awGetNames
        (Archive.add_manifest extraOf emptyArchive m).1.members).Pairwise
        (fun n1 n2 => ∀ e1 e2,
          gedPick (Archive.add_manifest extraOf emptyArchive m).1.members
            (archive_path e.1) n1 = some e1 →
          gedPick (Archive.add_manifest extraOf emptyArchive m).1.members
            (archive_path e.1) n2 = some e2 → e1.1 ≠ e2.1) := by
      refine List.Pairwise.imp ?_ (List.nodup_dedup _)
      intro n1 n2 hne e1 e2 h1 h2 hkeq
      apply hne
      rw [(ged_pick_sound extraOf m hak hx2 hstrip e he n1 e1 h1).2,
        (ged_pick_sound extraOf m hak hx2 hstrip e he n2 e2 h2).2, hkeq]
    rw [ged_as_fold,
      foldl_ged (Archive.add_manifest extraOf emptyArchive m).1.members
        (archive_path e.1) (awGetNames
          (Archive.add_manifest extraOf emptyArchive m).1.members) []
        (fun n hn e2 he2 => rfl) hpw,
      List.nil_append]
    rcases hdg : dictGet k (extraOf e.1) with _ | v
    · rw [dictGet_eq_none_iff]
      intro hkmem
      rw [List.mem_map] at hkmem
      obtain ⟨e2, he2f, hk2⟩ := hkmem
      obtain ⟨n2, hn2, hp2⟩ := List.mem_filterMap.mp he2f
      have hs := (ged_pick_sound extraOf m hak hx2 hstrip e he n2 e2 hp2).1
      rw [hk2, hdg] at hs
      exact Option.noConfusion hs
    · obtain ⟨hnmem, hpick⟩ := ged_pick_complete extraOf m hbound hak hx2
        hstrip e he k v hdg
      refine dictGet_of_mem_nodup _ ?_ k v ?_
      · exact filterMap_keys_nodup _ _ hpw
      · exact List.mem_filterMap.mpr
          ⟨pjoin (archive_path e.1) k, hnmem, hpick⟩

/-- Claim C4 witness: the amended theorem at the one-entry bound
manifest with a single mode key of extra data. -/
theorem c4_archive_roundtrip_witness :
    (Archive.add_manifest (fun _ => [(lit "mode", lit "420")]) emptyArchive
      c9M2).2 = none ∧
    (Archive.get_manifest (lit "/c")
      (Archive.add_manifest (fun _ => [(lit "mode", lit "420")]) emptyArchive
        c9M2).1.members).2 = none ∧
    (∀ q, (Archive.get_manifest (lit "/c")
        (Archive.add_manifest (fun _ => [(lit "mode", lit "420")])
          emptyArchive c9M2).1.members).1.lookupNAK q = c9M2.lookupNAK q) ∧
    ∀ e ∈ c9M2.files, ∀ k,
      dictGet k (Archive.get_extra_data
        (Archive.add_manifest (fun _ => [(lit "mode", lit "420")])
          emptyArchive c9M2).1.members e.1) =
      dictGet k ((fun (_ : Str) => [(lit "mode", lit "420")]) e.1) :=
  c4_archive_roundtrip (lit "/c") (fun _ => [(lit "mode", lit "420")]) c9M2
    (by decide) (by decide) (by decide) (by decide) (by decide)

/-! Claim C1: serialization round trip. -/

/-- Claim C1, counterexample to the claim as stated: for the manifest
binding /a to pacman with the single positional argument x,y (a comma
inside the value), dump writes the argument field verbatim, load splits
it at the comma into the two positional arguments x and y, and
constructing PacmanHandler with them (manifest.py line 117) raises
TypeError - its constructor takes exactly one package argument
(packages.py line 72) - so the loaded manifest carries no entry for /a
at all, let alone one with the same arguments. -/
theorem c1_roundtrip_counterexample :
    Manifest.dump c1Cex = lit "/a\tpacman\tx,y\n" ∧
    parseArgs (lit "x,y") = ([lit "x", lit "y"], []) ∧
    Manifest.load (lit "/c") emptyManifest c1Cex.dump =
      (emptyManifest,
        some (.typeError (lit "init takes too many arguments"))) ∧
    c1Cex.lookupNAK (lit "/a") =
      some (some (lit "pacman", [lit "x,y"], [])) := by
  refine ⟨by decide, by decide, by decide, by decide⟩

/-- Claim C1 (amended): for every manifest whose keys are in add_file
normal form for its mode and whose handler data is serializable (names
registered, arguments nonempty, comma-, tab-, newline- and equals-free
as applicable, strip-fixed, keyword keys distinct, and accepted
unchanged by the class constructor's signature - the get_args contract,
without which the re-construction on load raises TypeError), loading
the string produced by dump into an empty manifest raises nothing and
yields a manifest with the same path set and, for every path, the same
handler name, positional arguments and keyword arguments; unbound
entries round-trip as unbound. -/
theorem c1_roundtrip (cwd : Str) (m : Manifest) (hwf : manifestWf cwd m) :
    (Manifest.load cwd emptyManifest m.dump).2 = none ∧
    ∀ q, (Manifest.load cwd emptyManifest m.dump).1.lookupNAK q =
      m.lookupNAK q :=
  load_dump_roundtrip cwd m hwf

/-- Claim C1, witness: the amended round trip evaluated on a concrete
two-entry manifest (one unbound entry, one git-clone binding with a
keyword argument). -/
theorem c1_roundtrip_witness :
    (Manifest.load (lit "/c") emptyManifest c1Wit.dump).2 = none ∧
    ∀ q, (Manifest.load (lit "/c") emptyManifest c1Wit.dump).1.lookupNAK q =
      c1Wit.lookupNAK q :=
  c1_roundtrip (lit "/c") c1Wit (by decide)

end Restore
